import Mathlib

/-!
Verification of the LedgerX bill-parsing core against its specification.

The development shallowly embeds the text-extraction cascade of
`utils/table_parser.py`, `utils/bill_parser_v2.py` and `utils/bill_parser.py`:

* Python regular expressions are embedded with a small list-of-successes
  combinator library whose result lists are ordered exactly like the
  backtracking order of Python's `re` engine (ordered alternation, greedy
  quantifiers produce longer matches first, lazy quantifiers shorter first);
  `re.search` / `re.finditer` are embedded as leftmost scans.
* Monetary values: `parse_money` of `bill_parser_v2.py` produces a
  `decimal.Decimal` quantized to exactly two places (the source's own
  `return_cents=True` path converts it losslessly via `int(q * 100)`), so it
  is embedded as exact integer cents.  The sort key `m2f` of
  `table_parser.py` and the amounts of `bill_parser.py` are Python `float`s:
  they are embedded as correctly rounded IEEE-754 binary64 values (`FKey`),
  because doubles collapse distinct amounts from `2 ^ 53` hundredths on and
  the stable sorts then fall back to encounter order.  `datetime` values are
  year/month/day triples, Python exceptions are `Except`, and Python's
  stable `list.sort` is `List.insertionSort` (any two stable sorts under the
  same total preorder agree on their output).
* Character classes follow the ASCII reading of `\w`, `\s`, `\d` used by the
  statements the parser processes.
-/

namespace LedgerX

set_option maxRecDepth 1000000

instance {ε α : Type} [DecidableEq ε] [DecidableEq α] :
    DecidableEq (Except ε α) := fun a b =>
  match a, b with
  | Except.ok x, Except.ok y =>
    if h : x = y then isTrue (by rw [h])
    else isFalse (fun hh => by cases hh; exact h rfl)
  | Except.error x, Except.error y =>
    if h : x = y then isTrue (by rw [h])
    else isFalse (fun hh => by cases hh; exact h rfl)
  | Except.ok _, Except.error _ => isFalse (fun hh => by cases hh)
  | Except.error _, Except.ok _ => isFalse (fun hh => by cases hh)

/-! ### Character classes and Python string helpers -/

/-- Python `\s` (ASCII range). -/
def isWS (c : Char) : Bool :=
  c = ' ' || c = '\t' || c = '\n' || c = '\r' || c = '\x0b' || c = '\x0c'

/-- Python `\w` (ASCII reading): letters, digits, underscore. -/
def wordChar (c : Char) : Bool :=
  c.isAlpha || c.isDigit || c = '_'

/-- The class `[\dA-Za-z]` used by the look-arounds of `MONEY_STRICT`. -/
def alnum (c : Char) : Bool :=
  c.isDigit || c.isAlpha

/-- Python `str.strip()`: drop whitespace from both ends. -/
def pystrip (l : List Char) : List Char :=
  ((l.dropWhile isWS).reverse.dropWhile isWS).reverse

/-- Helper for `pysplit`: accumulates the current word (reversed). -/
def pysplitAux : List Char → List Char → List (List Char)
  | [], acc => if acc = [] then [] else [acc.reverse]
  | c :: t, acc =>
    if isWS c then
      if acc = [] then pysplitAux t [] else acc.reverse :: pysplitAux t []
    else pysplitAux t (c :: acc)

/-- Python `str.split()` with no argument: split on whitespace runs, dropping
empty pieces. -/
def pysplit (l : List Char) : List (List Char) :=
  pysplitAux l []

/-- `" ".join(words)`. -/
def joinSp : List (List Char) → List Char
  | [] => []
  | [w] => w
  | w :: rest => w ++ ' ' :: joinSp rest

/-- `" ".join(s.strip().split())`: the whitespace normalization applied to a
candidate header line in `extract_after_header`. -/
def normalizeLine (l : List Char) : List Char :=
  joinSp (pysplit (pystrip l))

/-- Python `str.splitlines()` restricted to the `\n`, `\r\n`, `\r` line breaks
that occur in the parsed statements (no trailing empty line). -/
def splitlinesAux : List Char → List Char → List (List Char)
  | [], acc => if acc = [] then [] else [acc.reverse]
  | '\r' :: '\n' :: t, acc => acc.reverse :: splitlinesAux t []
  | '\n' :: t, acc => acc.reverse :: splitlinesAux t []
  | '\r' :: t, acc => acc.reverse :: splitlinesAux t []
  | c :: t, acc => splitlinesAux t (c :: acc)

def splitlines (l : List Char) : List (List Char) :=
  splitlinesAux l []

theorem dropWhile_len_le (p : Char → Bool) (l : List Char) :
    (l.dropWhile p).length ≤ l.length := by
  induction l with
  | nil => simp
  | cons c t ih =>
    by_cases h : p c
    · simp only [List.dropWhile_cons, h, if_true]
      exact Nat.le_succ_of_le ih
    · simp [List.dropWhile_cons, h]

/-- Fuelled worker for `collapseWS2` (fuel-structural so that the kernel can
evaluate it; any fuel at least the input length is enough). -/
def collapseWS2F : Nat → List Char → List Char
  | 0, l => l
  | _ + 1, [] => []
  | _ + 1, [c] => [c]
  | fuel + 1, c :: c2 :: t =>
    if isWS c then
      if isWS c2 then ' ' :: collapseWS2F fuel ((c2 :: t).dropWhile isWS)
      else c :: collapseWS2F fuel (c2 :: t)
    else c :: collapseWS2F fuel (c2 :: t)

/-- `re.sub(r"\s{2,}", " ", blob)`: every maximal whitespace run of length at
least two becomes a single space (a lone whitespace character is kept). -/
def collapseWS2 (l : List Char) : List Char :=
  collapseWS2F l.length l

/-- Fuelled worker for `collapseWS1`. -/
def collapseWS1F : Nat → List Char → List Char
  | 0, l => l
  | _ + 1, [] => []
  | fuel + 1, c :: t =>
    if isWS c then ' ' :: collapseWS1F fuel (t.dropWhile isWS)
    else c :: collapseWS1F fuel t

/-- `re.sub(r"\s+", " ", s)`: every maximal whitespace run becomes one space. -/
def collapseWS1 (l : List Char) : List Char :=
  collapseWS1F l.length l

/-- Fuelled worker for `replaceAll`. -/
def replaceAllF (p0 : Char) (ps rep : List Char) : Nat → List Char → List Char
  | 0, l => l
  | _ + 1, [] => []
  | fuel + 1, c :: t =>
    if (p0 :: ps).isPrefixOf (c :: t) then
      rep ++ replaceAllF p0 ps rep fuel ((c :: t).drop (ps.length + 1))
    else c :: replaceAllF p0 ps rep fuel t

/-- `s.replace(pat, rep)` for a nonempty pattern `p0 :: ps`: replace leftmost
non-overlapping occurrences. -/
def replaceAll (p0 : Char) (ps rep : List Char) (l : List Char) : List Char :=
  replaceAllF p0 ps rep l.length l

/-- Python `str.title()` on ASCII text: a letter is uppercased when the
previous character is not a letter, lowercased otherwise. -/
def pytitleAux : Bool → List Char → List Char
  | _, [] => []
  | prevAlpha, c :: t =>
    if c.isAlpha then
      (if prevAlpha then c.toLower else c.toUpper) :: pytitleAux true t
    else c :: pytitleAux false t

def pytitle (l : List Char) : List Char :=
  pytitleAux false l

/-! ### List-of-successes parsers

A parser maps the input to the list of `(payload, remaining input)` pairs of
all parses, ordered exactly like the preference order of Python's
backtracking `re` engine: the head of the list is the parse the engine
commits to. -/

def P (α : Type) : Type :=
  List Char → List (α × List Char)

instance : Monad P where
  pure a := fun s => [(a, s)]
  bind p f := fun s => ((p s).map fun ar => f ar.1 ar.2).flatten

/-- The always-failing parser. -/
def pfail {α : Type} : P α := fun _ => []

/-- Ordered alternation, left preferred: `A|B`. -/
def palt {α : Type} (p q : P α) : P α := fun s => p s ++ q s

/-- Ordered alternation over a list of alternatives. -/
def paltL {α : Type} (ps : List (P α)) : P α := fun s => (ps.map (· s)).flatten

/-- Single character satisfying a class. -/
def pchar (f : Char → Bool) : P Char := fun s =>
  match s with
  | [] => []
  | c :: t => if f c then [(c, t)] else []

/-- Case-sensitive literal; the payload is the consumed text. -/
def pstr (w : List Char) : P (List Char) :=
  match w with
  | [] => pure []
  | c :: ws => do
    let x ← pchar (· = c)
    let xs ← pstr ws
    pure (x :: xs)

/-- Case-insensitive literal (re.IGNORECASE); payload = consumed text. -/
def pstrCI (w : List Char) : P (List Char) :=
  match w with
  | [] => pure []
  | c :: ws => do
    let x ← pchar (fun d => d.toLower = c.toLower)
    let xs ← pstrCI ws
    pure (x :: xs)

/-- Greedy counted repetition `p{lo,hi}`: more repetitions first. -/
def pcntG {α : Type} (p : P α) : Nat → Nat → P (List α)
  | lo, 0 => if lo = 0 then pure [] else pfail
  | lo, hi + 1 =>
    palt
      (do
        let a ← p
        let as ← pcntG p (lo - 1) hi
        pure (a :: as))
      (if lo = 0 then pure [] else pfail)

/-- Greedy `p*` (fuelled): more repetitions first. -/
def pmanyG {α : Type} (p : P α) : Nat → P (List α)
  | 0 => pure []
  | fuel + 1 =>
    palt
      (do
        let a ← p
        let as ← pmanyG p fuel
        pure (a :: as))
      (pure [])

/-- Greedy `p+` (fuelled). -/
def pmany1G {α : Type} (p : P α) (fuel : Nat) : P (List α) := do
  let a ← p
  let as ← pmanyG p fuel
  pure (a :: as)

/-- Lazy `p*` (fuelled): fewer repetitions first. -/
def pmanyL {α : Type} (p : P α) : Nat → P (List α)
  | 0 => pure []
  | fuel + 1 =>
    palt (pure [])
      (do
        let a ← p
        let as ← pmanyL p fuel
        pure (a :: as))

/-- Lazy `p+?` (fuelled): one occurrence, then as few more as possible. -/
def pmany1L {α : Type} (p : P α) (fuel : Nat) : P (List α) := do
  let a ← p
  let as ← pmanyL p fuel
  pure (a :: as)

/-- Greedy option `p?`: with-`p` first. -/
def poptG {α : Type} (p : P α) : P (Option α) :=
  palt (do let a ← p; pure (some a)) (pure none)

/-- `\s*` restricted by fuel; greedy. -/
def pwsStar (fuel : Nat) : P (List Char) :=
  pmanyG (pchar isWS) fuel

/-- `\s+` restricted by fuel; greedy. -/
def pwsPlus (fuel : Nat) : P (List Char) :=
  pmany1G (pchar isWS) fuel

/-- A matcher: given the character preceding the current position (`none` at
the start of input) and the input tail, decide whether a match starts here,
returning the payload and the input after the match.  Look-behinds and
look-aheads are resolved inside the matcher. -/
def M (β : Type) : Type :=
  Option Char → List Char → Option (β × List Char)

/-- A matcher from a plain parser (no look-arounds): the engine commits to
the first parse. -/
def mOfP {β : Type} (p : P β) : M β :=
  fun _ s => (p s).head?

/-- `re.search`: try every position from the left; the result is the skipped
prefix, the payload and the input after the match. -/
def searchM {β : Type} (m : M β) : Option Char → List Char → Option (List Char × β × List Char)
  | prev, [] => (m prev []).map fun br => ([], br.1, br.2)
  | prev, c :: t =>
    match m prev (c :: t) with
    | some (b, r) => some ([], b, r)
    | none => (searchM m (some c) t).map fun pbr => (c :: pbr.1, pbr.2.1, pbr.2.2)

/-- `re.finditer` for matchers whose payload is the (nonempty) matched text:
repeatedly search, resuming after each match. -/
def finditerTok (m : M (List Char)) : Nat → Option Char → List Char → List (List Char)
  | 0, _, _ => []
  | fuel + 1, prev, l =>
    match searchM m prev l with
    | none => []
    | some (_, tok, r) =>
      match tok.getLast? with
      | none => []
      | some lastc => tok :: finditerTok m fuel (some lastc) r

/-! ### Calendar dates and `datetime.strptime` -/

/-- A calendar date (no time component), the embedding of `datetime` values
produced by the parsers. -/
structure YMD where
  year : Nat
  month : Nat
  day : Nat
deriving DecidableEq, Repr

/-- `datetime` comparison: lexicographic on (year, month, day). -/
def YMD.le (a b : YMD) : Prop :=
  a.year < b.year ∨
    (a.year = b.year ∧
      (a.month < b.month ∨ (a.month = b.month ∧ a.day ≤ b.day)))

instance : DecidableRel YMD.le := fun a b => by
  unfold YMD.le; infer_instance

instance : IsTotal YMD YMD.le :=
  ⟨fun a b => by unfold YMD.le; omega⟩

instance : IsTrans YMD YMD.le :=
  ⟨fun a b c => by unfold YMD.le; omega⟩

def isLeap (y : Nat) : Bool :=
  y % 4 = 0 && (y % 100 ≠ 0 || y % 400 = 0)

def daysInMonth (y m : Nat) : Nat :=
  if m = 2 then (if isLeap y then 29 else 28)
  else if m = 4 || m = 6 || m = 9 || m = 11 then 30
  else 31

/-- The validity check `datetime(y, m, d)` performs (a `ValueError` on an
out-of-range component is caught by every caller and treated as a failed
format). -/
def validDate (y m d : Nat) : Bool :=
  1 ≤ y && y ≤ 9999 && 1 ≤ m && m ≤ 12 && 1 ≤ d && d ≤ daysInMonth y m

def digitVal (c : Char) : Nat := c.toNat - 48

def digitsToNat (ds : List Char) : Nat :=
  ds.foldl (fun n c => n * 10 + digitVal c) 0

/-- The full month names with their numbers, as matched by `%B`
(case-insensitively). -/
def fullMonths : List (String × Nat) :=
  [("January", 1), ("February", 2), ("March", 3), ("April", 4), ("May", 5),
   ("June", 6), ("July", 7), ("August", 8), ("September", 9), ("October", 10),
   ("November", 11), ("December", 12)]

/-- The abbreviated month names matched by `%b`. -/
def abbrMonths : List (String × Nat) :=
  [("Jan", 1), ("Feb", 2), ("Mar", 3), ("Apr", 4), ("May", 5), ("Jun", 6),
   ("Jul", 7), ("Aug", 8), ("Sep", 9), ("Oct", 10), ("Nov", 11), ("Dec", 12)]

/-- `%B`: a full month name (no name is a prefix of another, so the
alternation order is immaterial). -/
def pMonthFull : P Nat :=
  paltL (fullMonths.map fun wn => do
    let _ ← pstrCI wn.1.data
    pure wn.2)

/-- `%b`: an abbreviated month name. -/
def pMonthAbbr : P Nat :=
  paltL (abbrMonths.map fun wn => do
    let _ ← pstrCI wn.1.data
    pure wn.2)

/-- `%d` as compiled by `_strptime`: `3[01]|[12]\d|0[1-9]|[1-9]`. -/
def pDayNum : P Nat :=
  paltL
    [(do
        let _ ← pchar (· = '3')
        let d ← pchar (fun c => c = '0' || c = '1')
        pure (30 + digitVal d)),
     (do
        let a ← pchar (fun c => c = '1' || c = '2')
        let b ← pchar Char.isDigit
        pure (digitVal a * 10 + digitVal b)),
     (do
        let _ ← pchar (· = '0')
        let b ← pchar (fun c => c.isDigit && c ≠ '0')
        pure (digitVal b)),
     (do
        let a ← pchar (fun c => c.isDigit && c ≠ '0')
        pure (digitVal a))]

/-- `%Y` as compiled by `_strptime`: exactly four digits. -/
def pYear4 : P Nat := do
  let ds ← pcntG (pchar Char.isDigit) 4 4
  pure (digitsToNat ds)

/-- A format parser yields `(month, day, year)`; whitespace in a format
string is compiled by `_strptime` to `\s+`, other literals match exactly. -/
def FmtP : Type := Nat → P (Nat × Nat × Nat)

/-- `"%B %d, %Y"` -/
def fmtBcomma : FmtP := fun fuel => do
  let m ← pMonthFull
  let _ ← pwsPlus fuel
  let d ← pDayNum
  let _ ← pchar (· = ',')
  let _ ← pwsPlus fuel
  let y ← pYear4
  pure (m, d, y)

/-- `"%b %d, %Y"` -/
def fmtbcomma : FmtP := fun fuel => do
  let m ← pMonthAbbr
  let _ ← pwsPlus fuel
  let d ← pDayNum
  let _ ← pchar (· = ',')
  let _ ← pwsPlus fuel
  let y ← pYear4
  pure (m, d, y)

/-- `"%d %b %Y"` -/
def fmtDb : FmtP := fun fuel => do
  let d ← pDayNum
  let _ ← pwsPlus fuel
  let m ← pMonthAbbr
  let _ ← pwsPlus fuel
  let y ← pYear4
  pure (m, d, y)

/-- `"%d-%b-%Y"` -/
def fmtDdashb : FmtP := fun _ => do
  let d ← pDayNum
  let _ ← pchar (· = '-')
  let m ← pMonthAbbr
  let _ ← pchar (· = '-')
  let y ← pYear4
  pure (m, d, y)

/-- `"%B %d %Y"` -/
def fmtBnc : FmtP := fun fuel => do
  let m ← pMonthFull
  let _ ← pwsPlus fuel
  let d ← pDayNum
  let _ ← pwsPlus fuel
  let y ← pYear4
  pure (m, d, y)

/-- `"%b %d %Y"` -/
def fmtbnc : FmtP := fun fuel => do
  let m ← pMonthAbbr
  let _ ← pwsPlus fuel
  let d ← pDayNum
  let _ ← pwsPlus fuel
  let y ← pYear4
  pure (m, d, y)

/-- `"%d %B %Y"` -/
def fmtDB : FmtP := fun fuel => do
  let d ← pDayNum
  let _ ← pwsPlus fuel
  let m ← pMonthFull
  let _ ← pwsPlus fuel
  let y ← pYear4
  pure (m, d, y)

/-- One `datetime.strptime(s, fmt)` attempt: the engine commits to the first
parse; strptime then requires the match to span the whole string, and
`datetime` construction validates the components.  Any failure is a
`ValueError`, which every caller catches. -/
def runFmt (f : FmtP) (s : List Char) : Option YMD :=
  match (f s.length s).head? with
  | none => none
  | some ((m, d, y), rest) =>
    if rest = [] && validDate y m d then some ⟨y, m, d⟩ else none

/-- Try formats in their fixed priority order; first success wins. -/
def tryFmts : List FmtP → List Char → Option YMD
  | [], _ => none
  | f :: fs, s =>
    match runFmt f s with
    | some d => some d
    | none => tryFmts fs s

/-- `DATE_FORMATS` of `table_parser.py`. -/
def DATE_FORMATS : List FmtP :=
  [fmtBcomma, fmtbcomma, fmtDb, fmtDdashb, fmtBnc, fmtbnc]

/-- `parse_date_safe` of `table_parser.py`: strip, replace `"Sept"` by
`"Sep"`, collapse whitespace runs, then try `DATE_FORMATS`; `None` when no
format matches. -/
def parse_date_safe (s : List Char) : Option YMD :=
  tryFmts DATE_FORMATS
    (collapseWS1 (replaceAll 'S' "ept".data "Sep".data (pystrip s)))

/-- The formats tried by `parse_date` of `bill_parser_v2.py`. -/
def V2_FORMATS : List FmtP :=
  [fmtBcomma, fmtbcomma, fmtDb, fmtDB]

/-- `parse_date` of `bill_parser_v2.py`: collapse whitespace via
`" ".join(s.split())`, title-case, try the four formats; raises
`ValueError` (modelled by `Except.error` carrying the normalized token) when
none matches. -/
def parse_date (s : List Char) : Except (List Char) YMD :=
  let s1 := joinSp (pysplit s)
  match tryFmts V2_FORMATS (pytitle s1) with
  | some d => Except.ok d
  | none => Except.error s1

example : parse_date_safe "August 1, 2025".data = some ⟨2025, 8, 1⟩ := by decide
example : parse_date_safe "1 Aug 2025".data = some ⟨2025, 8, 1⟩ := by decide
example : parse_date_safe "September 1, 2025".data = none := by decide
example : parse_date "AUGUST 28, 2025".data = Except.ok ⟨2025, 8, 28⟩ := by decide
example : parse_date "".data = Except.error [] := by decide

/-! ### `table_parser.py` — Strategy C (header-anchored block extractor) -/

/-- The six labels of `HEADER_ANY_ORDER`, each as its list of words (the
pattern separates the words of a label by `\s+`). -/
def hdrLabels : List (List (List Char)) :=
  [["CUSTOMER".data, "NUMBER".data],
   ["STATEMENT".data, "DATE".data],
   ["CREDIT".data, "LIMIT".data],
   ["TOTAL".data, "AMOUNT".data, "DUE".data],
   ["MINIMUM".data, "AMOUNT".data, "DUE".data],
   ["PAYMENT".data, "DUE".data, "DATE".data]]

/-- Strip a case-insensitive prefix. -/
def ciStrip : List Char → List Char → Option (List Char)
  | [], l => some l
  | _ :: _, [] => none
  | c :: ws, d :: t => if d.toLower = c.toLower then ciStrip ws t else none

/-- Match a label's words separated by `\s+` at the head of `l`, returning
the remainder.  Greedily consuming the whole whitespace run is equivalent to
the regex `\s+` here because every word starts with a letter. -/
def phraseAt : List (List Char) → List Char → Option (List Char)
  | [], l => some l
  | [w], l => ciStrip w l
  | w :: ws, l =>
    match ciStrip w l with
    | none => none
    | some r =>
      match r with
      | c :: _ => if isWS c then phraseAt ws (r.dropWhile isWS) else none
      | [] => none

/-- `\b` before the phrase: the previous character must not be a word
character (the phrase itself starts with a letter). -/
def boundaryOk : Option Char → Bool
  | none => true
  | some c => !wordChar c

/-- `\b` after the phrase: the next character must not be a word character. -/
def afterOk : List Char → Bool
  | [] => true
  | c :: _ => !wordChar c

def phraseHereB (ws : List (List Char)) (prev : Option Char) (l : List Char) : Bool :=
  boundaryOk prev &&
    (match phraseAt ws l with
     | some r => afterOk r
     | none => false)

/-- `(?=.*\bW1\s+...\bWn\b)`: the phrase occurs somewhere in the line. -/
def phraseScan (ws : List (List Char)) : Option Char → List Char → Bool
  | prev, [] => phraseHereB ws prev []
  | prev, c :: t => phraseHereB ws prev (c :: t) || phraseScan ws (some c) t

/-- `HEADER_ANY_ORDER.match(line)` on an already whitespace-normalized line:
all six labels occur (in any order), and the line is nonempty (`.+$`). -/
def HEADER_ANY_ORDER (l : List Char) : Bool :=
  decide (l ≠ []) && hdrLabels.all (fun ws => phraseScan ws none l)

/-- `\d{n,}` (greedy, longer first). -/
def pDigitsGE (n fuel : Nat) : P (List Char) := do
  let xs ← pcntG (pchar Char.isDigit) n n
  let ys ← pmanyG (pchar Char.isDigit) fuel
  pure (xs ++ ys)

/-- One `-\d+` group of `CUSTOMER_NO`; the payload is the digit run. -/
def custGroupP (fuel : Nat) : P (List Char) := do
  let _ ← pchar (· = '-')
  let ds ← pmany1G (pchar Char.isDigit) fuel
  pure ds

/-- `(?:-\d+){3,}` (greedy). -/
def pGroupsGE3 (fuel : Nat) : P (List (List Char)) := do
  let a ← custGroupP fuel
  let b ← custGroupP fuel
  let c ← custGroupP fuel
  let rest ← pmanyG (custGroupP fuel) fuel
  pure (a :: b :: c :: rest)

/-- The body of `CUSTOMER_NO = \b\d{2,}(?:-\d+){3,}\b` as structured data:
the leading digit run and the hyphen-separated groups. -/
def CUSTOMER_NO_P (fuel : Nat) : P (List Char × List (List Char)) := do
  let d0 ← pDigitsGE 2 fuel
  let gs ← pGroupsGE3 fuel
  pure (d0, gs)

/-- Reassemble the token matched by `CUSTOMER_NO`. -/
def custTok (d0 : List Char) (gs : List (List Char)) : List Char :=
  d0 ++ (gs.map (fun g => '-' :: g)).flatten

/-- The matcher for `CUSTOMER_NO`, with both `\b` boundaries. -/
def CUSTOMER_NO_M : M (List Char) := fun prev s =>
  if boundaryOk prev then
    match (CUSTOMER_NO_P s.length s).find? (fun pr => afterOk pr.2) with
    | some ((d0, gs), r) => some (custTok d0 gs, r)
    | none => none
  else none

/-- `CUSTOMER_NO.search(blob)`. -/
def CUSTOMER_NO_search (blob : List Char) :
    Option (List Char × List Char × List Char) :=
  searchM CUSTOMER_NO_M none blob

/-- `,\d{3}` (one thousands group of `MONEY_STRICT`). -/
def moneyGrpP : P (List Char) := do
  let c ← pchar (· = ',')
  let ds ← pcntG (pchar Char.isDigit) 3 3
  pure (c :: ds)

/-- First branch of `MONEY_STRICT`: `\d{1,3}(?:,\d{3})+(?:\.\d{2})?`. -/
def moneyB1 (fuel : Nat) : P (List Char) := do
  let a ← pcntG (pchar Char.isDigit) 1 3
  let g1 ← moneyGrpP
  let gs ← pmanyG moneyGrpP fuel
  let f ← poptG (do
    let d ← pchar (· = '.')
    let ds ← pcntG (pchar Char.isDigit) 2 2
    pure (d :: ds))
  pure (a ++ g1 ++ gs.flatten ++ f.getD [])

/-- Second branch of `MONEY_STRICT`: `\d+\.\d{2}`. -/
def moneyB2 (fuel : Nat) : P (List Char) := do
  let a ← pmany1G (pchar Char.isDigit) fuel
  let d ← pchar (· = '.')
  let ds ← pcntG (pchar Char.isDigit) 2 2
  pure (a ++ d :: ds)

def MONEY_STRICT_P (fuel : Nat) : P (List Char) :=
  palt (moneyB1 fuel) (moneyB2 fuel)

/-- The matcher for `MONEY_STRICT`, with the `(?<![\dA-Za-z])` and
`(?![\dA-Za-z])` look-arounds. -/
def MONEY_STRICT_M : M (List Char) := fun prev s =>
  if (match prev with | none => true | some c => !alnum c) then
    (MONEY_STRICT_P s.length s).find?
      (fun pr => match pr.2 with | [] => true | c :: _ => !alnum c)
  else none

/-- `MONEY_STRICT.finditer(text)`: the matched tokens, left to right. -/
def MONEY_STRICT_finditer (l : List Char) : List (List Char) :=
  finditerTok MONEY_STRICT_M (l.length + 1) none l

/-- The month alternation of the first branch of `DATE_CAND`, in source
order (ordered alternation matters: `Sep` is tried before `Sept`). -/
def DATE_CAND_months1 : List String :=
  ["Jan", "Feb", "Mar", "Apr", "May", "Jun", "Jul", "Aug", "Sep", "Sept",
   "Oct", "Nov", "Dec", "January", "February", "March", "April", "June",
   "July", "August", "September", "October", "November", "December"]

/-- The month alternation of the second branch of `DATE_CAND`. -/
def DATE_CAND_months2 : List String :=
  ["Jan", "Feb", "Mar", "Apr", "May", "Jun", "Jul", "Aug", "Sep", "Oct",
   "Nov", "Dec"]

/-- `[\s\-]+` (greedy). -/
def pSepWS (fuel : Nat) : P (List Char) :=
  pmany1G (pchar (fun c => isWS c || c = '-')) fuel

/-- First branch of `DATE_CAND`: `Month[\s\-]+\d{1,2},?[\s\-]+\d{4}`. -/
def dateB1 (fuel : Nat) : P (List Char) := do
  let mo ← paltL (DATE_CAND_months1.map (fun w => pstrCI w.data))
  let s1 ← pSepWS fuel
  let d ← pcntG (pchar Char.isDigit) 1 2
  let cm ← poptG (pchar (· = ','))
  let s2 ← pSepWS fuel
  let y ← pcntG (pchar Char.isDigit) 4 4
  pure (mo ++ s1 ++ d ++ (match cm with | some c => [c] | none => []) ++ s2 ++ y)

/-- Second branch of `DATE_CAND`: `\d{1,2}[\s\-]+Mon[\s\-]+\d{4}`. -/
def dateB2 (fuel : Nat) : P (List Char) := do
  let d ← pcntG (pchar Char.isDigit) 1 2
  let s1 ← pSepWS fuel
  let mo ← paltL (DATE_CAND_months2.map (fun w => pstrCI w.data))
  let s2 ← pSepWS fuel
  let y ← pcntG (pchar Char.isDigit) 4 4
  pure (d ++ s1 ++ mo ++ s2 ++ y)

def DATE_CAND_P (fuel : Nat) : P (List Char) :=
  palt (dateB1 fuel) (dateB2 fuel)

/-- `DATE_CAND.finditer(text)`. -/
def DATE_CAND_finditer (l : List Char) : List (List Char) :=
  finditerTok (mOfP (DATE_CAND_P l.length)) (l.length + 1) none l

/-- De-duplicate the parsed date tokens by exact calendar day, keeping the
first occurrence of each day (the `seen` set loop). -/
def dedupDates (seen : List YMD) : List (List Char × YMD) → List (List Char × YMD)
  | [] => []
  | (ds, dt) :: rest =>
    if dt ∈ seen then dedupDates seen rest
    else (ds, dt) :: dedupDates (dt :: seen) rest

/-- Chronological order on parsed date tokens (`key=lambda x: x[1]`). -/
def dateLe (a b : List Char × YMD) : Prop :=
  YMD.le a.2 b.2

instance : DecidableRel dateLe := fun a b => by
  unfold dateLe; infer_instance

instance : IsTotal (List Char × YMD) dateLe :=
  ⟨fun a b => IsTotal.total (r := YMD.le) a.2 b.2⟩

instance : IsTrans (List Char × YMD) dateLe :=
  ⟨fun _ _ _ hab hbc => Trans.trans (r := YMD.le) (s := YMD.le) hab hbc⟩

/-- The `(token, parsed date)` pairs of the date tokens of a blob:
`DATE_CAND` matches with `parse_date_safe` failures dropped. -/
def parsedDates (blob : List Char) : List (List Char × YMD) :=
  (DATE_CAND_finditer blob).filterMap
    (fun ds => (parse_date_safe ds).map (fun dt => (ds, dt)))

/-- The de-duplicated (by calendar day, first token kept) and
chronologically sorted date entries of a blob. -/
def uniqDates (blob : List Char) : List (List Char × YMD) :=
  List.insertionSort dateLe (dedupDates [] (parsedDates blob))

/-- Step 4 of `extract_after_header`: find all `DATE_CAND` tokens, parse
them with `parse_date_safe` dropping failures, de-duplicate by calendar day,
sort chronologically; earliest token becomes `statement_date`, latest
becomes `payment_due` when at least two distinct days remain. -/
def dateFields (blob : List Char) : List Char × List Char :=
  let uniq := uniqDates blob
  (match uniq.head? with
   | some p => p.1
   | none => [],
   if 2 ≤ uniq.length then
     match uniq.getLast? with
     | some p => p.1
     | none => []
   else [])

/-- The value of up to two fractional digits, in cents. -/
def fracCents : List Char → Nat
  | [] => 0
  | [a] => 10 * digitVal a
  | a :: b :: _ => 10 * digitVal a + digitVal b

/-! ### IEEE-754 binary64 values (Python `float`)

`float(decimal-string)` rounds the exact decimal value to the nearest
binary64 (ties to even); distinct decimal amounts collapse onto the same
double from `2 ^ 53` hundredths on, which matters to the float-keyed sorts
below. -/

/-- Bit length of a natural number (`0` for `0`); `fuel` bounds the
recursion depth, and every caller passes at least the bit length. -/
def bitlenF : Nat → Nat → Nat
  | 0, _ => 0
  | f + 1, n => if n = 0 then 0 else bitlenF f (n / 2) + 1

/-- The value of a Python `float` as produced by the parsers: zero, a
normalized finite double `m * 2 ^ e` with `2 ^ 52 ≤ m < 2 ^ 53`, or `inf`
(`float` of a long enough digit string overflows to infinity; every amount
here is nonnegative, so no sign is carried). -/
inductive FKey where
  | zero : FKey
  | fin (m : Nat) (e : Int) : FKey
  | inf : FKey
deriving DecidableEq, Repr

/-- Round `num / den` to the nearest integer, ties to even — the rounding
of both `float(decimal-string)` and `f"{v:.2f}"`. -/
def rne (num den : Nat) : Nat :=
  let q := num / den
  let r := num % den
  if 2 * r < den then q
  else if den < 2 * r then q + 1
  else if q % 2 = 0 then q else q + 1

/-- The significand of `cents / 100` scaled to binade exponent `e`, rounded
to nearest with ties to even. -/
def mAt (cents : Nat) (e : Int) : Nat :=
  if 0 ≤ e then rne cents (100 * 2 ^ e.toNat)
  else rne (cents * 2 ^ (-e).toNat) 100

/-- Normalization: starting just below the binade of `cents / 100`, raise
the exponent until the rounded significand fits in 53 bits (at most two
steps are ever needed); a final exponent of `972` or more means the value
reaches `2 ^ 1024` and overflows to `inf`. -/
def normF : Nat → Nat → Int → FKey
  | 0, _, _ => FKey.inf
  | f + 1, cents, e =>
    let m := mAt cents e
    if m < 2 ^ 53 then (if 972 ≤ e then FKey.inf else FKey.fin m e)
    else normF f cents (e + 1)

/-- `float(s)` for a decimal string worth `cents` hundredths: the correctly
rounded binary64 value of `cents / 100`.  `fuel` bounds the bit length of
`cents`. -/
def f64OfCents (fuel cents : Nat) : FKey :=
  if cents = 0 then FKey.zero
  else normF 4 cents ((bitlenF fuel cents : Int) - 60)

/-- The order on the (nonnegative) `float` values. -/
def fkeyLe : FKey → FKey → Prop
  | FKey.zero, _ => True
  | FKey.fin _ _, FKey.zero => False
  | FKey.fin m1 e1, FKey.fin m2 e2 => e1 < e2 ∨ (e1 = e2 ∧ m1 ≤ m2)
  | FKey.fin _ _, FKey.inf => True
  | FKey.inf, FKey.zero => False
  | FKey.inf, FKey.fin _ _ => False
  | FKey.inf, FKey.inf => True

instance : DecidableRel fkeyLe := fun a b => by
  cases a <;> cases b <;> simp only [fkeyLe] <;> infer_instance

instance : IsTotal FKey fkeyLe :=
  ⟨fun a b => by
    cases a <;> cases b <;> simp only [fkeyLe] <;>
      first
        | exact Or.inl trivial
        | exact Or.inr trivial
        | omega⟩

instance : IsTrans FKey fkeyLe :=
  ⟨fun a b c => by
    cases a <;> cases b <;> cases c <;> simp only [fkeyLe] <;>
      intro h1 h2 <;>
      first
        | trivial
        | exact h1.elim
        | exact h2.elim
        | omega⟩

/-- `fkeyLe` is reflexive. -/
theorem fkeyLe_refl (k : FKey) : fkeyLe k k := by
  cases k with
  | zero => trivial
  | fin m e => exact Or.inr ⟨rfl, le_rfl⟩
  | inf => trivial

/-- The exact number of hundredths of a finite `float` value, rounded to
nearest with ties to even — the quantity printed by `f"{v:.2f}"`. -/
def fkeyCents : FKey → Nat
  | FKey.zero => 0
  | FKey.fin m e =>
    if 0 ≤ e then m * 2 ^ e.toNat * 100 else rne (m * 100) (2 ^ (-e).toNat)
  | FKey.inf => 0

/-- The exact value of a money token (digits with optional commas and an
optional one- or two-digit fraction), in hundredths: the input value the
`float(...)` conversions round, and the "numeric value" reading the claims
use. -/
def exactCents (s : List Char) : Nat :=
  let s := s.filter (· ≠ ',')
  let ip := s.takeWhile (· ≠ '.')
  match s.dropWhile (· ≠ '.') with
  | [] => 100 * digitsToNat ip
  | _ :: fp => 100 * digitsToNat ip + fracCents fp

/-- `float(s.replace(",", ""))` for a money token: the correctly rounded
binary64 value of its exact decimal value (the fuel bounds the bit length
of the token's hundredths count: four bits per character plus slack). -/
def m2f (s : List Char) : FKey :=
  f64OfCents (4 * s.length + 64) (exactCents s)

/-- The order on money tokens used by `sorted(..., key=m2f)`: compare the
`float` values.  `List.insertionSort` under this preorder is stable, like
Python's `sorted`, so tokens with equal doubles keep encounter order. -/
def tokLe (a b : List Char) : Prop :=
  fkeyLe (m2f a) (m2f b)

instance : DecidableRel tokLe := fun a b => by
  unfold tokLe; infer_instance

instance : IsTotal (List Char) tokLe :=
  ⟨fun a b => (inferInstanceAs (IsTotal FKey fkeyLe)).total (m2f a) (m2f b)⟩

instance : IsTrans (List Char) tokLe :=
  ⟨fun _ _ _ hab hbc =>
    (inferInstanceAs (IsTrans FKey fkeyLe)).trans _ _ _ hab hbc⟩

/-- The `for m in money_vals` loop: first distinct tokens in encounter
order, stopping as soon as three have been collected. -/
def take3Distinct (seen acc : List (List Char)) : List (List Char) → List (List Char)
  | [] => acc.reverse
  | m :: rest =>
    let sa := if m ∈ seen then (seen, acc) else (m :: seen, m :: acc)
    if sa.2.length = 3 then sa.2.reverse else take3Distinct sa.1 sa.2 rest

/-- Step 5 of `extract_after_header`: money tokens are searched after the
customer-number match, the search widens to the whole blob when fewer than
three distinct tokens are found, the first three distinct tokens are kept
and assigned by ascending magnitude.  Returns
`(min_due, total_due, credit_limit)`. -/
def moneyFields (blob searchText : List Char) :
    List Char × List Char × List Char :=
  let money_vals := MONEY_STRICT_finditer searchText
  let money_vals :=
    if money_vals.dedup.length < 3 then MONEY_STRICT_finditer blob
    else money_vals
  let distinct := take3Distinct [] [] money_vals
  if distinct.length = 3 then
    match List.insertionSort tokLe distinct with
    | [lo, mid, hi] => (lo, mid, hi)
    | _ => ([], [], [])
  else
    let vals_sorted := List.insertionSort tokLe distinct
    match vals_sorted.reverse with
    | [] => ([], [], [])
    | [a] => (a, [], a)
    | a :: b :: _ => (vals_sorted.headD [], b, a)

/-- A stop marker line: `ln.strip().startswith(m)` for
`m ∈ ("| Previous", "## ")`. -/
def stopMarker (ln : List Char) : Bool :=
  "| Previous".data.isPrefixOf (pystrip ln) || "## ".data.isPrefixOf (pystrip ln)

/-- Step 2 of `extract_after_header`: accumulate the lines after the header
until a stop marker or the `max_lines` cap, blank lines included. -/
def takeBlock : List (List Char) → Nat → List (List Char)
  | [], _ => []
  | ln :: rest, cap =>
    if stopMarker ln then []
    else if cap ≤ 1 then [ln]
    else ln :: takeBlock rest (cap - 1)

/-- `" ".join(seg.strip() for seg in block)`, then collapse whitespace runs
of length at least 2, then strip. -/
def blobOf (block : List (List Char)) : List Char :=
  pystrip (collapseWS2 (joinSp (block.map pystrip)))

/-- Index of the first line whose whitespace-normalized text matches
`HEADER_ANY_ORDER`. -/
def findHeaderIdx : List (List Char) → Option Nat
  | [] => none
  | ln :: rest =>
    if HEADER_ANY_ORDER (normalizeLine ln) then some 0
    else (findHeaderIdx rest).map (· + 1)

/-- The record built by `extract_after_header` (all values are the raw
matched tokens, exactly as in the source, including the
`source_layout: "table_row"` tag). -/
structure CRec where
  customer_number : String
  statement_date : String
  payment_due_date : String
  credit_limit : String
  total_amount_due : String
  minimum_amount_due : String
  source_layout : String
deriving DecidableEq, Repr

/-- `extract_after_header` on a list of lines.  `Except.error ()` is the
`ValueError("Header not found (any order).")` raise; `Except.ok none` is the
`return None` taken when neither `payment_due` nor `total_due` was
populated. -/
def extractCore (lines : List (List Char)) : Except Unit (Option CRec) :=
  match findHeaderIdx lines with
  | none => Except.error ()
  | some i =>
    let block := takeBlock (lines.drop (i + 1)) 12
    let blob := blobOf block
    let cm := CUSTOMER_NO_search blob
    let customer_number := match cm with
      | some (_, tok, _) => tok
      | none => []
    let searchText := match cm with
      | some (_, _, r) => r
      | none => blob
    let sd_pd := dateFields blob
    let moneys := moneyFields blob searchText
    if sd_pd.2 ≠ [] ∨ moneys.2.1 ≠ [] then
      Except.ok (some
        { customer_number := String.mk customer_number
          statement_date := String.mk sd_pd.1
          payment_due_date := String.mk sd_pd.2
          credit_limit := String.mk moneys.2.2
          total_amount_due := String.mk moneys.2.1
          minimum_amount_due := String.mk moneys.1
          source_layout := "table_row" })
    else Except.ok none

/-- `extract_after_header(text)` of `table_parser.py`. -/
def extract_after_header (text : String) : Except Unit (Option CRec) :=
  extractCore (splitlines text.data)

/-! ### `bill_parser_v2.py` — money normalizer, strategies A/B, cascade -/

/-- `unicodedata.normalize("NFKC", s)` restricted to the character classes
the money grammar can meet: compatibility space characters normalize to a
plain space; ASCII characters and `₱` (U+20B1, which has no compatibility
decomposition) are fixed points. -/
def nfkcChar (c : Char) : Char :=
  if c = ' ' || c = ' ' || c = ' ' then ' ' else c

def nfkc (l : List Char) : List Char :=
  l.map nfkcChar

/-- The groups captured by `_MONEY_RE`. -/
structure MParts where
  sign : Option Char
  cur : Option (List Char)
  num : List Char
  frac : Option (List Char)
  suf : Option (List Char)
deriving DecidableEq, Repr

/-- `\d{1,3}(?:,\d{3})*` (first alternative of the `num` group). -/
def numB1 (fuel : Nat) : P (List Char) := do
  let a ← pcntG (pchar Char.isDigit) 1 3
  let gs ← pmanyG moneyGrpP fuel
  pure (a ++ gs.flatten)

/-- `\d+` (second alternative of the `num` group). -/
def numB2 (fuel : Nat) : P (List Char) :=
  pmany1G (pchar Char.isDigit) fuel

/-- The body of `_MONEY_RE` (note: the `CR|DR` suffix is case-sensitive —
the pattern is compiled with `re.VERBOSE` only). -/
def MONEY_RE_P (fuel : Nat) : P MParts := do
  let _ ← pwsStar fuel
  let sg ← poptG (pchar (fun c => c = '-' || c = '+'))
  let _ ← pwsStar fuel
  let cu ← poptG (palt (pstr "₱".data)
    (do let c ← pchar (fun c => c = 'P' || c = 'p'); pure [c]))
  let _ ← pwsStar fuel
  let nm ← palt (numB1 fuel) (numB2 fuel)
  let fr ← poptG (do
    let _ ← pchar (· = '.')
    pcntG (pchar Char.isDigit) 1 2)
  let _ ← pwsStar fuel
  let sf ← poptG (palt (pstr "CR".data) (pstr "DR".data))
  let _ ← pwsStar fuel
  pure ⟨sg, cu, nm, fr, sf⟩

/-- `_MONEY_RE.match(s)`: anchored at the start; the `$` anchor makes the
engine backtrack until the whole string is consumed. -/
def MONEY_RE_match (s : List Char) : Option MParts :=
  ((MONEY_RE_P s.length s).find? (fun pr => pr.2 = [])).map (·.1)

/-- The magnitude assembled by `parse_money` (`Decimal(num + "." + frac)`
with commas stripped), in exact cents; the fraction group has at most two
digits, so the 2-decimal quantize step of the source is the identity. -/
def magCents (parts : MParts) : Nat :=
  100 * digitsToNat (parts.num.filter (· ≠ ',')) +
    (match parts.frac with
     | some fp => fracCents fp
     | none => 0)

/-- The preprocessing of `parse_money`: strip; empty rejects; NFKC; strip a
`( ... )` wrap recording the parenthetical-negative flag; match
`_MONEY_RE`. -/
def moneyDecomp (s : List Char) : Option (Bool × MParts) :=
  let s1 := pystrip s
  if s1 = [] then none
  else
    let s2 := nfkc s1
    let pn := decide (s2.head? = some '(') && decide (s2.getLast? = some ')')
    let s3 := if pn then pystrip ((s2.drop 1).dropLast) else s2
    (MONEY_RE_match s3).map (fun parts => (pn, parts))

/-- The sign rule of `parse_money`: negative when parenthesized, explicitly
minus-signed, or suffixed `CR` — except that suffix `DR` always forces the
positive sign. -/
def moneySignedCents (pn : Bool) (parts : MParts) : Int :=
  let negative := pn || decide (parts.sign = some '-') ||
    decide (parts.suf = some "CR".data)
  let isDR := decide (parts.suf = some "DR".data)
  if negative && !isDR then -(magCents parts : Int) else (magCents parts : Int)

/-- `parse_money` of `bill_parser_v2.py`, returning the exact cents of the
quantized `Decimal` (`None` on empty or non-conforming input). -/
def parse_money (s : List Char) : Option Int :=
  (moneyDecomp s).map (fun pp => moneySignedCents pp.1 pp.2)

example : parse_money "(1,234.56)".data = some (-123456) := by decide
example : parse_money "₱ 13,927.33".data = some 1392733 := by decide
example : parse_money "P1,000".data = some 100000 := by decide
example : parse_money "-850".data = some (-85000) := by decide
example : parse_money "".data = none := by decide

/-- First capture of `PATTERNS["total_balance"]`:
`(?i)total\s+account\s+balance\s+([\d,]+\.\d{2})`, via `re.search`. -/
def totalBalanceP (fuel : Nat) : P (List Char) := do
  let _ ← pstrCI "total".data
  let _ ← pwsPlus fuel
  let _ ← pstrCI "account".data
  let _ ← pwsPlus fuel
  let _ ← pstrCI "balance".data
  let _ ← pwsPlus fuel
  let a ← pmany1G (pchar (fun c => c.isDigit || c = ',')) fuel
  let d ← pchar (· = '.')
  let ds ← pcntG (pchar Char.isDigit) 2 2
  pure (a ++ d :: ds)

/-- First capture of `PATTERNS["due_date"]`:
`(?i)(?:payment\s+)?due\s+date\s+(\d{1,2}\s+\w+\s+\d{4})`. -/
def dueDateP (fuel : Nat) : P (List Char) := do
  let _ ← poptG (do
    let _ ← pstrCI "payment".data
    pwsPlus fuel)
  let _ ← pstrCI "due".data
  let _ ← pwsPlus fuel
  let _ ← pstrCI "date".data
  let _ ← pwsPlus fuel
  let d ← pcntG (pchar Char.isDigit) 1 2
  let s1 ← pwsPlus fuel
  let w ← pmany1G (pchar wordChar) fuel
  let s2 ← pwsPlus fuel
  let y ← pcntG (pchar Char.isDigit) 4 4
  pure (d ++ s1 ++ w ++ s2 ++ y)

/-- First capture of `PATTERNS["min_payment"]`:
`(?i)minimum\s+payment\s+([\d,]+\.\d{2})`. -/
def minPaymentP (fuel : Nat) : P (List Char) := do
  let _ ← pstrCI "minimum".data
  let _ ← pwsPlus fuel
  let _ ← pstrCI "payment".data
  let _ ← pwsPlus fuel
  let a ← pmany1G (pchar (fun c => c.isDigit || c = ',')) fuel
  let d ← pchar (· = '.')
  let ds ← pcntG (pchar Char.isDigit) 2 2
  pure (a ++ d :: ds)

/-- `re.search` for a pattern with no look-arounds: leftmost match, first
parse; the payload is the capture. -/
def searchP {α : Type} (p : P α) (l : List Char) : Option α :=
  (searchM (mOfP p) none l).map (fun x => x.2.1)

def search_total_balance (text : List Char) : Option (List Char) :=
  searchP (totalBalanceP text.length) text

def search_due_date (text : List Char) : Option (List Char) :=
  searchP (dueDateP text.length) text

def search_min_payment (text : List Char) : Option (List Char) :=
  searchP (minPaymentP text.length) text

/-- The cell character class `[\s₱P\(\)\d,\.]` of `TABLE_ROW`
(`re.IGNORECASE` lets `p` match as well). -/
def cellChar (c : Char) : Bool :=
  isWS c || c = '₱' || c = 'P' || c = 'p' || c = '(' || c = ')' ||
    c.isDigit || c = ',' || c = '.'

/-- The month alternation of `DATE_DMY` (includes `Sept`). -/
def DATE_DMY_months : List String :=
  ["Jan", "Feb", "Mar", "Apr", "May", "Jun", "Jul", "Aug", "Sep", "Sept",
   "Oct", "Nov", "Dec"]

/-- `DATE_LONG`: `Month\s+\d{1,2},\s+\d{4}` with full month names. -/
def DATE_LONG_P (fuel : Nat) : P (List Char) := do
  let mo ← paltL (fullMonths.map (fun wn => pstrCI wn.1.data))
  let s1 ← pwsPlus fuel
  let d ← pcntG (pchar Char.isDigit) 1 2
  let c ← pchar (· = ',')
  let s2 ← pwsPlus fuel
  let y ← pcntG (pchar Char.isDigit) 4 4
  pure (mo ++ s1 ++ d ++ c :: s2 ++ y)

/-- `DATE_DMY`: `\d{1,2}\s+Mon\s+\d{4}`. -/
def DATE_DMY_P (fuel : Nat) : P (List Char) := do
  let d ← pcntG (pchar Char.isDigit) 1 2
  let s1 ← pwsPlus fuel
  let mo ← paltL (DATE_DMY_months.map (fun w => pstrCI w.data))
  let s2 ← pwsPlus fuel
  let y ← pcntG (pchar Char.isDigit) 4 4
  pure (d ++ s1 ++ mo ++ s2 ++ y)

def DATE_ANY_P (fuel : Nat) : P (List Char) :=
  palt (DATE_LONG_P fuel) (DATE_DMY_P fuel)

/-- The captures of `TABLE_ROW` that `extract_fields` uses. -/
structure TParts where
  total_due : List Char
  min_due : List Char
  payment_due : List Char
deriving DecidableEq, Repr

/-- The body of `TABLE_ROW`: four `|`-delimited cells, the first two lazy
cell-character runs, the third a `DATE_ANY`, the fourth a greedy
cell-character run with an optional closing `|`. -/
def TABLE_ROW_P (fuel : Nat) : P TParts := do
  let _ ← pchar (· = '|')
  let _ ← pwsStar fuel
  let td ← pmany1L (pchar cellChar) fuel
  let _ ← pwsStar fuel
  let _ ← pchar (· = '|')
  let _ ← pwsStar fuel
  let md ← pmany1L (pchar cellChar) fuel
  let _ ← pwsStar fuel
  let _ ← pchar (· = '|')
  let _ ← pwsStar fuel
  let pd ← DATE_ANY_P fuel
  let _ ← pwsStar fuel
  let _ ← pchar (· = '|')
  let _ ← pwsStar fuel
  let _ ← pmanyG (pchar cellChar) fuel
  let _ ← poptG (pchar (· = '|'))
  pure ⟨td, md, pd⟩

/-- `TABLE_ROW.search(text)`: `re.MULTILINE` makes `^` match at the start of
the text and right after each newline. -/
def TABLE_ROW_M : M TParts := fun prev s =>
  if prev = none || prev = some '\n' then (TABLE_ROW_P s.length s).head?
  else none

def TABLE_ROW_search (text : List Char) : Option TParts :=
  (searchM TABLE_ROW_M none text).map (·.2.1)

/-- The typed failures `extract_fields` can surface to its caller. -/
inductive ExtErr
  | headerNotFound
  | unrecognizedDate (s : List Char)
  | allStrategiesExhausted
deriving DecidableEq, Repr

/-- The record `extract_fields` returns.  In the A/B layouts the
customer/statement/credit fields are `None`; in the header-block layout they
hold the raw matched tokens (only `total_amount_due`, `minimum_amount_due`
and `payment_due_date` are re-parsed). -/
structure BillRec where
  customer_number : Option String
  statement_date : Option String
  credit_limit : Option String
  total_amount_due : Option Int
  minimum_amount_due : Option Int
  payment_due_date : YMD
  source_layout : String
deriving DecidableEq, Repr

/-- `extract_fields(text)` of `bill_parser_v2.py`: Strategy A (all three
label patterns), else Strategy B (`TABLE_ROW`), else Strategy C
(`extract_after_header`); a `None` from Strategy C raises the terminal
`ValueError`, an uncaught `ValueError` from `extract_after_header` or
`parse_date` propagates. -/
def extract_fields (text : String) : Except ExtErr BillRec :=
  let t := text.data
  match search_total_balance t, search_due_date t, search_min_payment t with
  | some tbv, some ddv, some mpv =>
    (match parse_date ddv with
     | Except.error s => Except.error (ExtErr.unrecognizedDate s)
     | Except.ok pd =>
       Except.ok
         { customer_number := none
           statement_date := none
           credit_limit := none
           total_amount_due := parse_money tbv
           minimum_amount_due := parse_money mpv
           payment_due_date := pd
           source_layout := "string_strict_sequence" })
  | _, _, _ =>
    match TABLE_ROW_search t with
    | some tp =>
      (match parse_date tp.payment_due with
       | Except.error s => Except.error (ExtErr.unrecognizedDate s)
       | Except.ok pd =>
         Except.ok
           { customer_number := none
             statement_date := none
             credit_limit := none
             total_amount_due := parse_money tp.total_due
             minimum_amount_due := parse_money tp.min_due
             payment_due_date := pd
             source_layout := "string_table_row" })
    | none =>
      match extract_after_header text with
      | Except.error _ => Except.error ExtErr.headerNotFound
      | Except.ok none => Except.error ExtErr.allStrategiesExhausted
      | Except.ok (some m) =>
        match parse_date m.payment_due_date.data with
        | Except.error s => Except.error (ExtErr.unrecognizedDate s)
        | Except.ok pd =>
          Except.ok
            { customer_number := some m.customer_number
              statement_date := some m.statement_date
              credit_limit := some m.credit_limit
              total_amount_due := parse_money m.total_amount_due.data
              minimum_amount_due := parse_money m.minimum_amount_due.data
              payment_due_date := pd
              source_layout := m.source_layout }

/-! ### `bill_parser.py` — the scoring heuristic (alternate entry point) -/

/-- Match a keyword phrase at the head of `l`; the words are separated by
`\s*` when `star` is true (the date keywords) and by `\s+` otherwise (the
amount keywords). -/
def kwPhraseAt (star : Bool) : List (List Char) → List Char → Option (List Char)
  | [], l => some l
  | [w], l => ciStrip w l
  | w :: ws, l =>
    match ciStrip w l with
    | none => none
    | some r =>
      if star then kwPhraseAt star ws (r.dropWhile isWS)
      else
        match r with
        | c :: _ => if isWS c then kwPhraseAt star ws (r.dropWhile isWS) else none
        | [] => none

/-- `re.search` of a keyword phrase (case-insensitive, no boundaries). -/
def kwScan (star : Bool) (ws : List (List Char)) : List Char → Bool
  | [] => (kwPhraseAt star ws []).isSome
  | c :: t => (kwPhraseAt star ws (c :: t)).isSome || kwScan star ws t

def DATE_KEYWORDS : List (List (List Char)) :=
  [["due".data, "date".data], ["payment".data, "due".data],
   ["pay".data, "by".data], ["statement".data, "due".data],
   ["bill".data, "due".data], ["payment".data, "deadline".data],
   ["date".data, "due".data]]

def AMOUNT_KEYWORDS_PRIMARY : List (List (List Char)) :=
  [["total".data, "amount".data, "due".data], ["amount".data, "due".data],
   ["total".data, "due".data], ["statement".data, "balance".data],
   ["outstanding".data, "balance".data], ["current".data, "balance".data]]

def AMOUNT_KEYWORDS_AVOID : List (List (List Char)) :=
  [["minimum".data, "amount".data, "due".data], ["minimum".data, "due".data]]

/-- `match_any(line, DATE_KEYWORDS)` (separators `\s*`). -/
def matchAnyStar (pats : List (List (List Char))) (l : List Char) : Bool :=
  pats.any (fun ws => kwScan true ws l)

/-- `match_any(line, pats)` for the amount keyword lists (separators `\s+`). -/
def matchAnyPlus (pats : List (List (List Char))) (l : List Char) : Bool :=
  pats.any (fun ws => kwScan false ws l)

/-- One alternative of `CURRENCY_SYMS = ₱|\bPHP\b|(?<!\S)Php` matching at
the current position (case-insensitive). -/
def currencyHere (prev : Option Char) (l : List Char) : Bool :=
  (match l with
   | '₱' :: _ => true
   | _ => false) ||
  (boundaryOk prev &&
    (match ciStrip "PHP".data l with
     | some r => afterOk r
     | none => false)) ||
  ((match prev with
    | none => true
    | some c => isWS c) && (ciStrip "Php".data l).isSome)

def currencyScanAux : Option Char → List Char → Bool
  | prev, [] => currencyHere prev []
  | prev, c :: t => currencyHere prev (c :: t) || currencyScanAux (some c) t

/-- `re.search(CURRENCY_SYMS, line, re.IGNORECASE)`. -/
def currencySearch (l : List Char) : Bool :=
  currencyScanAux none l

/-- The capture of `AMOUNT_RX`:
`(?:\d{1,3}(?:,\d{3})+|\d+)(?:\.\d{2})?`. -/
def amountNumP (fuel : Nat) : P (List Char) := do
  let a ← palt
    (do
      let x ← pcntG (pchar Char.isDigit) 1 3
      let g1 ← moneyGrpP
      let gs ← pmanyG moneyGrpP fuel
      pure (x ++ g1 ++ gs.flatten))
    (pmany1G (pchar Char.isDigit) fuel)
  let f ← poptG (do
    let d ← pchar (· = '.')
    let ds ← pcntG (pchar Char.isDigit) 2 2
    pure (d :: ds))
  pure (a ++ f.getD [])

/-- The matcher for `AMOUNT_RX = CURRENCY_SYMS?\s*(NUM)`: the optional
currency is greedy, so its three alternatives are tried (with their
look-arounds) before the currency-less parse; the payload is the capture. -/
def AMOUNT_RX_M : M (List Char) := fun prev s =>
  let fuel := s.length
  let cont : List Char → Option (List Char × List Char) := fun s2 =>
    ((do
        let _ ← pwsStar fuel
        amountNumP fuel : P (List Char)) s2).head?
  let branches : List (Option (List Char × List Char)) :=
    [(match s with
      | '₱' :: r => cont r
      | _ => none),
     (if boundaryOk prev then
        match ciStrip "PHP".data s with
        | some r => if afterOk r then cont r else none
        | none => none
      else none),
     (if (match prev with
          | none => true
          | some c => isWS c) then
        match ciStrip "Php".data s with
        | some r => cont r
        | none => none
      else none),
     cont s]
  (branches.filterMap id).head?

/-- `normalize_amount(s)` of `bill_parser.py`: search `AMOUNT_RX`, strip
the commas of the capture and convert it with `float` (which cannot raise
on a `[\d,.]` capture, so the `except` branch is dead). -/
def normalize_amount (l : List Char) : Option FKey :=
  (searchM AMOUNT_RX_M none l).map (fun x => m2f x.2.1)

/-- The amount token captured by `AMOUNT_RX.search` (group 1). -/
def amountCapture (l : List Char) : Option (List Char) :=
  (searchM AMOUNT_RX_M none l).map (fun x => x.2.1)

example : normalize_amount "no digits here".data = none := by decide

/-- The external `dateutil.parser.parse(s, dayfirst=b, fuzzy=True)`
collaborator: it returns a date or raises (modelled by `Except`);
`extract_due_and_amount` is parametric in it. -/
def DtParser : Type :=
  List Char → Bool → Except Unit YMD

def pad2 (n : Nat) : List Char :=
  if n < 10 then '0' :: Nat.toDigits 10 n else Nat.toDigits 10 n

def pad4 (n : Nat) : List Char :=
  let ds := Nat.toDigits 10 n
  List.replicate (4 - ds.length) '0' ++ ds

/-- `dt.date().isoformat()`. -/
def isoFmt (d : YMD) : List Char :=
  pad4 d.year ++ '-' :: (pad2 d.month ++ '-' :: pad2 d.day)

/-- `parse_date_any(s)` of `bill_parser.py`: try `dayfirst=False` then
`dayfirst=True`, catching every parser exception; `None` when both raise. -/
def parse_date_any (dtp : DtParser) (s : List Char) : Option (List Char) :=
  let s1 := pystrip s
  match dtp s1 false with
  | Except.ok d => some (isoFmt d)
  | Except.error _ =>
    match dtp s1 true with
    | Except.ok d => some (isoFmt d)
    | Except.error _ => none

/-- `find_nearby(lines, idx, window)`. -/
def find_nearby (lines : List (List Char)) (i window : Nat) : List (List Char) :=
  (lines.drop (i - window)).take (min lines.length (i + window + 1) - (i - window))

/-- Pass 1 of `extract_due_and_amount`: the first keyword line whose own
text, or a nearby distinct line, parses as a date wins. -/
def pass1Go (dtp : DtParser) (all : List (List Char)) :
    List (List Char) → Nat → Option (List Char)
  | [], _ => none
  | line :: rest, i =>
    if matchAnyStar DATE_KEYWORDS line then
      match parse_date_any dtp line with
      | some dd => some dd
      | none =>
        match ((find_nearby all i 2).filter (fun c => c ≠ line)).findSome?
            (parse_date_any dtp) with
        | some dd => some dd
        | none => pass1Go dtp all rest (i + 1)
    else pass1Go dtp all rest (i + 1)

def pass1 (dtp : DtParser) (lines : List (List Char)) : Option (List Char) :=
  pass1Go dtp lines lines 0

/-- A scoring candidate `(amount, score, context line)`; the amount is a
Python `float`. -/
structure Cand where
  am : FKey
  score : Nat
  line : List Char
deriving DecidableEq, Repr

/-- The descending ranking on `(score, amount)` used by
`candidates.sort(key=lambda t: (t[1], t[0]), reverse=True)`: scores are
integers, amounts compare as doubles.  `List.insertionSort` under this
preorder is stable, like Python's `sort`, so candidates with equal keys
keep encounter order. -/
def candGE (a b : Cand) : Prop :=
  b.score < a.score ∨ (b.score = a.score ∧ fkeyLe b.am a.am)

instance : DecidableRel candGE := fun a b => by
  unfold candGE; infer_instance

instance : IsTotal Cand candGE :=
  ⟨fun a b => by
    unfold candGE
    rcases Nat.lt_trichotomy b.score a.score with h | h | h
    · exact Or.inl (Or.inl h)
    · rcases (inferInstanceAs (IsTotal FKey fkeyLe)).total b.am a.am with hf | hf
      · exact Or.inl (Or.inr ⟨h, hf⟩)
      · exact Or.inr (Or.inr ⟨h.symm, hf⟩)
    · exact Or.inr (Or.inl h)⟩

instance : IsTrans Cand candGE :=
  ⟨fun a b c h1 h2 => by
    unfold candGE at h1 h2 ⊢
    rcases h1 with h1 | ⟨h1e, h1f⟩
    · rcases h2 with h2 | ⟨h2e, h2f⟩
      · exact Or.inl (Nat.lt_trans h2 h1)
      · exact Or.inl (by rw [h2e]; exact h1)
    · rcases h2 with h2 | ⟨h2e, h2f⟩
      · exact Or.inl (by rw [← h1e]; exact h2)
      · exact Or.inr ⟨h2e.trans h1e,
          (inferInstanceAs (IsTrans FKey fkeyLe)).trans _ _ _ h2f h1f⟩⟩

/-- Pass 2 of `extract_due_and_amount`: collect candidates in line order —
an avoid-keyword line contributes its amount with score 1 and is otherwise
skipped; any other line with an amount contributes score 3 (primary
keyword) or 2, plus 1 for a currency symbol; after a primary-keyword line,
the next line's amount is added with score 4. -/
def collectCands : List (List Char) → List Cand
  | [] => []
  | line :: rest =>
    if matchAnyPlus AMOUNT_KEYWORDS_AVOID line then
      (match normalize_amount line with
       | some am => [⟨am, 1, line⟩]
       | none => []) ++ collectCands rest
    else
      let pri := matchAnyPlus AMOUNT_KEYWORDS_PRIMARY line
      let own := match normalize_amount line with
        | some am =>
          [⟨am, (if pri then 3 else 2) + (if currencySearch line then 1 else 0),
            line⟩]
        | none => []
      let la := if pri then
          match rest with
          | next :: _ =>
            match normalize_amount next with
            | some am2 => [⟨am2, 4, line ++ " | ".data ++ next⟩]
            | none => []
          | [] => []
        else []
      own ++ la ++ collectCands rest

def digitChar (n : Nat) : Char :=
  Char.ofNat (48 + n)

/-- Decimal digits of a natural number, most significant first; `fuel`
bounds the number of digits. -/
def natDigitsF : Nat → Nat → List Char → List Char
  | 0, _, acc => acc
  | f + 1, n, acc =>
    if n < 10 then digitChar n :: acc
    else natDigitsF f (n / 10) (digitChar (n % 10) :: acc)

def natDigits (fuel n : Nat) : List Char :=
  natDigitsF fuel n []

/-- `f"{amount_value:.2f}"` of a `float` amount: the exact binary64 value
rounded to two decimals, ties to even (`"inf"` for an overflowed float). -/
def fmt2f : FKey → List Char
  | FKey.inf => "inf".data
  | FKey.zero => "0.00".data
  | FKey.fin m e =>
    let n := fkeyCents (FKey.fin m e)
    natDigits (40 + (if 0 ≤ e then e.toNat else 0)) (n / 100) ++
      '.' :: pad2 (n % 100)

/-- The record returned by `extract_due_and_amount` (a dict with exactly
the keys `due_date`, `amount`, `amount_context`). -/
structure DueAmount where
  due_date : Option (List Char)
  amount : Option (List Char)
  amount_context : Option (List Char)
deriving DecidableEq, Repr

/-- `extract_due_and_amount(lines)` of `bill_parser.py`, parametric in the
external date parser. -/
def extract_due_and_amount (dtp : DtParser) (lines : List (List Char)) :
    DueAmount :=
  let due := pass1 dtp lines
  let cands := collectCands lines
  match List.insertionSort candGE cands with
  | best :: _ => ⟨due, some (fmt2f best.am), some best.line⟩
  | [] => ⟨due, none, none⟩

/-! ### Derived predicates used by the claim statements -/

/-- Strategy A succeeds: all three `PATTERNS` searches hit
(`none_count == 0`). -/
def strategyA_hit (t : List Char) : Bool :=
  (search_total_balance t).isSome && (search_due_date t).isSome &&
    (search_min_payment t).isSome

/-- The outcome of the Strategy A branch of `extract_fields`, in isolation. -/
def strategyA_run (text : String) : Except ExtErr BillRec :=
  match search_total_balance text.data, search_due_date text.data,
      search_min_payment text.data with
  | some tbv, some ddv, some mpv =>
    (match parse_date ddv with
     | Except.error s => Except.error (ExtErr.unrecognizedDate s)
     | Except.ok pd =>
       Except.ok
         { customer_number := none
           statement_date := none
           credit_limit := none
           total_amount_due := parse_money tbv
           minimum_amount_due := parse_money mpv
           payment_due_date := pd
           source_layout := "string_strict_sequence" })
  | _, _, _ => Except.error ExtErr.allStrategiesExhausted

/-! ### Concrete scenario inputs -/

/-- The end-to-end scenario input of the specification: the six-label header
line followed by the data block. -/
def c1Text : String :=
  "CUSTOMER NUMBER STATEMENT DATE CREDIT LIMIT TOTAL AMOUNT DUE MINIMUM AMOUNT DUE PAYMENT DUE DATE\n1234-5678-9012-3456 August 1, 2025 August 28, 2025 100.00 5,000.00 20,000.00"

/-- A text satisfying both the Strategy A patterns and the Strategy B
table-row grammar. -/
def c6Text : String :=
  "total account balance 5,000.00\ndue date 15 Oct 2025\nminimum payment 100.00\n| 5,000.00 | 100.00 | August 28, 2025 | 0.00 |"

/-- A header-block text whose first customer-number-shaped token has
single-digit groups. -/
def c8Text : String :=
  "CUSTOMER NUMBER STATEMENT DATE CREDIT LIMIT TOTAL AMOUNT DUE MINIMUM AMOUNT DUE PAYMENT DUE DATE\n12-3-4-5 August 1, 2025 August 28, 2025 100.00 5,000.00 20,000.00"

/-- A header-block text whose two date tokens denote the same calendar day
in different literal formats. -/
def c4Text : String :=
  "CUSTOMER NUMBER STATEMENT DATE CREDIT LIMIT TOTAL AMOUNT DUE MINIMUM AMOUNT DUE PAYMENT DUE DATE\n1234-5678-9012-3456 August 1, 2025 1 Aug 2025 100.00 5,000.00 20,000.00"

/-- A header-block text whose three money tokens after the customer number
include two distinct amounts of at least `2 ^ 53` hundredths that round to
the same double, the exactly-larger one first. -/
def c3Text : String :=
  "CUSTOMER NUMBER STATEMENT DATE CREDIT LIMIT TOTAL AMOUNT DUE MINIMUM AMOUNT DUE PAYMENT DUE DATE\n1234-5678-9012-3456 August 1, 2025 August 28, 2025 9007199254740993.00 9007199254740992.00 1.00"

/-! ### C1 — the end-to-end scenario -/

/-- C1, counterexample: on the spec's end-to-end input the cascade does
return a record, but its `source_layout` is `"table_row"` (the tag Strategy
C attaches), not the `"header_block"` the claim states — and the statement
date and credit limit are returned as the raw matched tokens. -/
theorem C1_counterexample :
    extract_fields c1Text =
      Except.ok
        { customer_number := some "1234-5678-9012-3456"
          statement_date := some "August 1, 2025"
          credit_limit := some "20,000.00"
          total_amount_due := some 500000
          minimum_amount_due := some 10000
          payment_due_date := ⟨2025, 8, 28⟩
          source_layout := "table_row" } ∧
    ("table_row" : String) ≠ "header_block" := by
  constructor
  · decide
  · decide

/-- C1, amended: on the end-to-end input, `extract_fields` falls through
Strategies A and B and returns Strategy C's record with
`source_layout = "table_row"`, `customer_number = "1234-5678-9012-3456"`,
the statement date kept as the raw token `"August 1, 2025"`, the credit
limit kept as the raw token `"20,000.00"`, `payment_due_date` parsed to
2025-08-28, `minimum_amount_due = 100.00` and `total_amount_due = 5000.00`
(exact cents 10000 and 500000). -/
theorem C1_amended :
    strategyA_hit c1Text.data = false ∧
    TABLE_ROW_search c1Text.data = none ∧
    extract_fields c1Text =
      Except.ok
        { customer_number := some "1234-5678-9012-3456"
          statement_date := some "August 1, 2025"
          credit_limit := some "20,000.00"
          total_amount_due := some 500000
          minimum_amount_due := some 10000
          payment_due_date := ⟨2025, 8, 28⟩
          source_layout := "table_row" } := by
  refine ⟨by decide, by decide, by decide⟩

/-! ### C2 / C6 — cascade failure propagation and strategy priority -/

/-- Every record Strategy C hands back is tagged `"table_row"`. -/
theorem extractCore_layout (lines : List (List Char)) (m : CRec)
    (h : extractCore lines = Except.ok (some m)) :
    m.source_layout = "table_row" := by
  unfold extractCore at h
  cases hidx : findHeaderIdx lines with
  | none => rw [hidx] at h; exact absurd h (by simp)
  | some i =>
    rw [hidx] at h
    simp only at h
    split at h
    · rw [Except.ok.injEq, Option.some.injEq] at h
      subst h
      rfl
    · exact absurd h (by simp)

/-- C2, counterexample: on the empty input both Strategy A and Strategy B
fail, and the failure `extract_fields` surfaces is Strategy C's
`HeaderNotFound` — not the terminal all-strategies-exhausted failure the
claim says is the only one surfaced. -/
theorem C2_counterexample :
    strategyA_hit "".data = false ∧
    TABLE_ROW_search "".data = none ∧
    extract_fields "" = Except.error ExtErr.headerNotFound ∧
    ExtErr.headerNotFound ≠ ExtErr.allStrategiesExhausted := by
  refine ⟨by decide, by decide, by decide, by decide⟩

/-- C2, amended: when Strategies A and B both fail, unparsable date or
money candidates inside Strategy C never surface (the embedded
`extract_after_header` can only fail with header-not-found), but Strategy
C's `HeaderNotFound` is surfaced to the caller as-is; the terminal
all-strategies-exhausted failure is surfaced exactly when the header was
found and Strategy C produced no usable fields; the only other failure
surfaced is a date-normalization failure on the selected record's
`payment_due_date`. -/
theorem C2_amended (text : String)
    (ha : strategyA_hit text.data = false)
    (hb : TABLE_ROW_search text.data = none) :
    (extract_after_header text = Except.error () →
      extract_fields text = Except.error ExtErr.headerNotFound) ∧
    (extract_fields text = Except.error ExtErr.allStrategiesExhausted ↔
      extract_after_header text = Except.ok none) ∧
    (∀ e, extract_fields text = Except.error e →
      e = ExtErr.headerNotFound ∨ (∃ s, e = ExtErr.unrecognizedDate s) ∨
        e = ExtErr.allStrategiesExhausted) := by
  have hred : extract_fields text =
      (match extract_after_header text with
       | Except.error _ => Except.error ExtErr.headerNotFound
       | Except.ok none => Except.error ExtErr.allStrategiesExhausted
       | Except.ok (some m) =>
         match parse_date m.payment_due_date.data with
         | Except.error s => Except.error (ExtErr.unrecognizedDate s)
         | Except.ok pd =>
           Except.ok
             { customer_number := some m.customer_number
               statement_date := some m.statement_date
               credit_limit := some m.credit_limit
               total_amount_due := parse_money m.total_amount_due.data
               minimum_amount_due := parse_money m.minimum_amount_due.data
               payment_due_date := pd
               source_layout := m.source_layout }) := by
    unfold extract_fields
    unfold strategyA_hit at ha
    cases h1 : search_total_balance text.data with
    | none => simp only [h1, hb]
    | some tbv =>
      cases h2 : search_due_date text.data with
      | none => simp only [h1, h2, hb]
      | some ddv =>
        cases h3 : search_min_payment text.data with
        | none => simp only [h1, h2, h3, hb]
        | some mpv => rw [h1, h2, h3] at ha; simp at ha
  refine ⟨?_, ?_, ?_⟩
  · intro hh
    rw [hred, hh]
  · rw [hred]
    cases hc : extract_after_header text with
    | error e => simp
    | ok mo =>
      cases mo with
      | none => simp
      | some m =>
        simp only []
        cases hp : parse_date m.payment_due_date.data with
        | error s => simp
        | ok pd => simp
  · intro e he
    rw [hred] at he
    cases hc : extract_after_header text with
    | error u => rw [hc] at he; simp at he; simp [he.symm]
    | ok mo =>
      cases mo with
      | none => rw [hc] at he; simp at he; simp [he.symm]
      | some m =>
        rw [hc] at he
        simp only [] at he
        cases hp : parse_date m.payment_due_date.data with
        | error s =>
          rw [hp] at he
          simp at he
          exact Or.inr (Or.inl ⟨s, he.symm⟩)
        | ok pd => rw [hp] at he; simp at he

/-- C2, witness at the empty input. -/
theorem C2_witness :
    (extract_after_header "" = Except.error () →
      extract_fields "" = Except.error ExtErr.headerNotFound) ∧
    (extract_fields "" = Except.error ExtErr.allStrategiesExhausted ↔
      extract_after_header "" = Except.ok none) ∧
    (∀ e, extract_fields "" = Except.error e →
      e = ExtErr.headerNotFound ∨ (∃ s, e = ExtErr.unrecognizedDate s) ∨
        e = ExtErr.allStrategiesExhausted) :=
  C2_amended "" (by decide) (by decide)

/-- C6, counterexample: a text satisfying both the Strategy A patterns and
the Strategy B table-row grammar is resolved by Strategy A — but the result
is labeled `"string_strict_sequence"`, not the `"strict_sequence"` the claim
names. -/
theorem C6_counterexample :
    strategyA_hit c6Text.data = true ∧
    TABLE_ROW_search c6Text.data ≠ none ∧
    extract_fields c6Text =
      Except.ok
        { customer_number := none
          statement_date := none
          credit_limit := none
          total_amount_due := some 500000
          minimum_amount_due := some 10000
          payment_due_date := ⟨2025, 10, 15⟩
          source_layout := "string_strict_sequence" } ∧
    ("string_strict_sequence" : String) ≠ "strict_sequence" := by
  refine ⟨by decide, by decide, by decide, by decide⟩

/-- C6, amended: whenever all three Strategy A patterns match, the cascade
commits to Strategy A (`extract_fields` equals the Strategy A branch, so the
Table-Row result is never returned), and a Strategy A success is labeled
`"string_strict_sequence"`; conversely, when any Strategy A pattern misses,
a successful extraction is labeled `"string_table_row"` or `"table_row"` —
never the strict-sequence label. -/
theorem C6_amended (text : String) :
    (strategyA_hit text.data = true →
      extract_fields text = strategyA_run text) ∧
    (∀ r, strategyA_run text = Except.ok r →
      r.source_layout = "string_strict_sequence") ∧
    (strategyA_hit text.data = false →
      ∀ r, extract_fields text = Except.ok r →
        r.source_layout = "string_table_row" ∨ r.source_layout = "table_row") ∧
    ("string_strict_sequence" : String) ≠ "string_table_row" ∧
    ("string_strict_sequence" : String) ≠ "table_row" := by
  refine ⟨?_, ?_, ?_, by decide, by decide⟩
  · intro hhit
    unfold strategyA_hit at hhit
    cases h1 : search_total_balance text.data with
    | none => rw [h1] at hhit; simp at hhit
    | some tbv =>
      cases h2 : search_due_date text.data with
      | none => rw [h1, h2] at hhit; simp at hhit
      | some ddv =>
        cases h3 : search_min_payment text.data with
        | none => rw [h1, h2, h3] at hhit; simp at hhit
        | some mpv =>
          simp only [extract_fields, strategyA_run, h1, h2, h3]
  · intro r hr
    unfold strategyA_run at hr
    cases h1 : search_total_balance text.data with
    | none => rw [h1] at hr; simp at hr
    | some tbv =>
      cases h2 : search_due_date text.data with
      | none => rw [h1, h2] at hr; simp at hr
      | some ddv =>
        cases h3 : search_min_payment text.data with
        | none => rw [h1, h2, h3] at hr; simp at hr
        | some mpv =>
          rw [h1, h2, h3] at hr
          simp only [] at hr
          cases hp : parse_date ddv with
          | error s => rw [hp] at hr; simp at hr
          | ok pd =>
            rw [hp] at hr
            rw [Except.ok.injEq] at hr
            subst hr
            rfl
  · intro hmiss r hr
    simp only [extract_fields] at hr
    unfold strategyA_hit at hmiss
    have hrB : (match TABLE_ROW_search text.data with
        | some tp =>
          (match parse_date tp.payment_due with
           | Except.error s => Except.error (ExtErr.unrecognizedDate s)
           | Except.ok pd =>
             Except.ok
               { customer_number := none
                 statement_date := none
                 credit_limit := none
                 total_amount_due := parse_money tp.total_due
                 minimum_amount_due := parse_money tp.min_due
                 payment_due_date := pd
                 source_layout := "string_table_row" })
        | none =>
          match extract_after_header text with
          | Except.error _ => Except.error ExtErr.headerNotFound
          | Except.ok none => Except.error ExtErr.allStrategiesExhausted
          | Except.ok (some m) =>
            match parse_date m.payment_due_date.data with
            | Except.error s => Except.error (ExtErr.unrecognizedDate s)
            | Except.ok pd =>
              Except.ok
                { customer_number := some m.customer_number
                  statement_date := some m.statement_date
                  credit_limit := some m.credit_limit
                  total_amount_due := parse_money m.total_amount_due.data
                  minimum_amount_due := parse_money m.minimum_amount_due.data
                  payment_due_date := pd
                  source_layout := m.source_layout }) = Except.ok r := by
      cases h1 : search_total_balance text.data with
      | none => rw [h1] at hr; exact hr
      | some tbv =>
        cases h2 : search_due_date text.data with
        | none => rw [h1, h2] at hr; exact hr
        | some ddv =>
          cases h3 : search_min_payment text.data with
          | none => rw [h1, h2, h3] at hr; exact hr
          | some mpv => rw [h1, h2, h3] at hmiss; simp at hmiss
    cases ht : TABLE_ROW_search text.data with
    | some tp =>
      rw [ht] at hrB
      simp only [] at hrB
      cases hp : parse_date tp.payment_due with
      | error s => rw [hp] at hrB; simp at hrB
      | ok pd =>
        rw [hp] at hrB
        rw [Except.ok.injEq] at hrB
        subst hrB
        exact Or.inl rfl
    | none =>
      rw [ht] at hrB
      cases hc : extract_after_header text with
      | error u => rw [hc] at hrB; simp at hrB
      | ok mo =>
        cases mo with
        | none => rw [hc] at hrB; simp at hrB
        | some m =>
          rw [hc] at hrB
          simp only [] at hrB
          cases hp : parse_date m.payment_due_date.data with
          | error s => rw [hp] at hrB; simp at hrB
          | ok pd =>
            rw [hp] at hrB
            rw [Except.ok.injEq] at hrB
            subst hrB
            exact Or.inr (extractCore_layout _ _ hc)

/-- C6, witness at the both-grammars input. -/
theorem C6_witness :
    extract_fields c6Text = strategyA_run c6Text ∧
    (∀ r, strategyA_run c6Text = Except.ok r →
      r.source_layout = "string_strict_sequence") :=
  ⟨(C6_amended c6Text).1 (by decide), (C6_amended c6Text).2.1⟩

/-! ### C9 / C10 — the scoring heuristic -/

/-- `candGE` is reflexive. -/
theorem candGE_refl (c : Cand) : candGE c c :=
  Or.inr ⟨rfl, fkeyLe_refl c.am⟩

/-- A date parser that always raises, instantiating the external
collaborator in the concrete scenarios. -/
def dtpFail : DtParser := fun _ _ => Except.error ()

/-- Two candidate lines without scoring keywords whose amount tokens are
one hundredth apart at `2 ^ 53` hundredths, where doubles tie. -/
def c9l1 : List Char := "charge 9007199254740992.00".data

def c9l2 : List Char := "charge 9007199254740993.00".data

/-- C9, counterexample: the two lines carry equal scores and their amount
tokens are float-equal although the second is exactly larger by one
hundredth; the stable descending sort keeps encounter order, so the code
reports the first line's candidate — the strictly larger amount does not
win the tie, refuting the claim's exact-numeric reading. -/
theorem C9_counterexample :
    amountCapture c9l1 = some "9007199254740992.00".data ∧
    amountCapture c9l2 = some "9007199254740993.00".data ∧
    exactCents "9007199254740992.00".data <
      exactCents "9007199254740993.00".data ∧
    (collectCands [c9l1, c9l2]).map Cand.score = [2, 2] ∧
    extract_due_and_amount dtpFail [c9l1, c9l2] =
      ⟨none, some "9007199254740992.00".data, some c9l1⟩ := by
  refine ⟨by decide, by decide, by decide, by decide, by decide⟩

/-- C9 (amended): whenever the candidate list collected from the lines is
nonempty, the reported amount (and context line) comes from a collected
candidate that every collected candidate is below in the descending
lexicographic order on `(score, amount)` compared as the code does —
scores as integers, amounts as their binary64 `float` values, under which
distinct exact amounts can tie (the stable sort then keeps encounter
order); the reported amount string is the two-decimal formatting of that
candidate's `float` value. -/
theorem C9_amended (dtp : DtParser) (lines : List (List Char))
    (h : collectCands lines ≠ []) :
    ∃ best, best ∈ collectCands lines ∧
      (extract_due_and_amount dtp lines).amount = some (fmt2f best.am) ∧
      (extract_due_and_amount dtp lines).amount_context = some best.line ∧
      ∀ c ∈ collectCands lines, candGE best c := by
  have hperm := List.perm_insertionSort candGE (collectCands lines)
  have hsorted := List.sorted_insertionSort candGE (collectCands lines)
  cases hs : List.insertionSort candGE (collectCands lines) with
  | nil =>
    rw [hs] at hperm
    exact absurd (hperm.symm.eq_nil) h
  | cons best t =>
    refine ⟨best, ?_, ?_, ?_, ?_⟩
    · exact hperm.mem_iff.mp (hs ▸ List.mem_cons_self _ _)
    · simp only [extract_due_and_amount]
      rw [hs]
    · simp only [extract_due_and_amount]
      rw [hs]
    · intro c hc
      have hcs : c ∈ best :: t := hs ▸ hperm.mem_iff.mpr hc
      rw [hs] at hsorted
      rcases List.mem_cons.mp hcs with hceq | hct
      · subst hceq; exact candGE_refl c
      · exact List.rel_of_sorted_cons hsorted c hct

/-- C9, witness: two candidate lines, the primary-keyword one wins. -/
theorem C9_witness :
    ∃ best, best ∈ collectCands
        ["Total Amount Due ₱ 5,143.00".data, "Minimum Amount Due 100.00".data] ∧
      (extract_due_and_amount dtpFail
          ["Total Amount Due ₱ 5,143.00".data,
           "Minimum Amount Due 100.00".data]).amount =
        some (fmt2f best.am) ∧
      (extract_due_and_amount dtpFail
          ["Total Amount Due ₱ 5,143.00".data,
           "Minimum Amount Due 100.00".data]).amount_context =
        some best.line ∧
      ∀ c ∈ collectCands
          ["Total Amount Due ₱ 5,143.00".data, "Minimum Amount Due 100.00".data],
        candGE best c :=
  C9_amended dtpFail
    ["Total Amount Due ₱ 5,143.00".data, "Minimum Amount Due 100.00".data]
    (by decide)

/-- A `parse_date_any` success always comes from a successful call of the
external parser. -/
theorem parse_date_any_some (dtp : DtParser) (s d : List Char)
    (h : parse_date_any dtp s = some d) :
    ∃ t b ymd, dtp t b = Except.ok ymd ∧ d = isoFmt ymd := by
  simp only [parse_date_any] at h
  cases h0 : dtp (pystrip s) false with
  | ok ymd =>
    rw [h0] at h
    simp only [Option.some.injEq] at h
    exact ⟨pystrip s, false, ymd, h0, h.symm⟩
  | error u =>
    rw [h0] at h
    cases h1 : dtp (pystrip s) true with
    | ok ymd =>
      rw [h1] at h
      simp only [Option.some.injEq] at h
      exact ⟨pystrip s, true, ymd, h1, h.symm⟩
    | error v => rw [h1] at h; simp at h

/-- When the external parser always raises, `parse_date_any` is `none`. -/
theorem parse_date_any_none (dtp : DtParser)
    (hall : ∀ t b, dtp t b = Except.error ()) (s : List Char) :
    parse_date_any dtp s = none := by
  simp only [parse_date_any]
  rw [hall, hall]

/-- A `pass1` success always comes from a successful external parse. -/
theorem pass1Go_some (dtp : DtParser) (all : List (List Char)) :
    ∀ rest i d, pass1Go dtp all rest i = some d →
      ∃ t b ymd, dtp t b = Except.ok ymd ∧ d = isoFmt ymd := by
  intro rest
  induction rest with
  | nil => intro i d h; simp [pass1Go] at h
  | cons line rtl ih =>
    intro i d h
    unfold pass1Go at h
    by_cases hkw : matchAnyStar DATE_KEYWORDS line
    · rw [if_pos hkw] at h
      cases h1 : parse_date_any dtp line with
      | some dd =>
        rw [h1] at h
        simp only [Option.some.injEq] at h
        exact h ▸ parse_date_any_some dtp line dd h1
      | none =>
        rw [h1] at h
        cases h2 : ((find_nearby all i 2).filter (fun c => c ≠ line)).findSome?
            (parse_date_any dtp) with
        | some dd =>
          rw [h2] at h
          simp only [Option.some.injEq] at h
          obtain ⟨a, _, ha⟩ := List.exists_of_findSome?_eq_some h2
          exact h ▸ parse_date_any_some dtp a dd ha
        | none =>
          rw [h2] at h
          exact ih (i + 1) d h
    · rw [if_neg hkw] at h
      exact ih (i + 1) d h

/-- C10: the scoring entry point is total — for every line list (empty
included) it returns the three-field record; the amount and context are
`None` exactly when no candidate was collected (unparsable amount tokens
are skipped during collection); a reported due date always stems from a
successful external date parse, and if every date parse raises, the due
date is `None` rather than an error. -/
theorem C10_total_shape (dtp : DtParser) (lines : List (List Char)) :
    ((extract_due_and_amount dtp lines).amount = none ↔
      collectCands lines = []) ∧
    ((extract_due_and_amount dtp lines).amount_context = none ↔
      collectCands lines = []) ∧
    (∀ d, (extract_due_and_amount dtp lines).due_date = some d →
      ∃ t b ymd, dtp t b = Except.ok ymd ∧ d = isoFmt ymd) ∧
    ((∀ t b, dtp t b = Except.error ()) →
      (extract_due_and_amount dtp lines).due_date = none) ∧
    extract_due_and_amount dtp [] = ⟨none, none, none⟩ := by
  have hperm := List.perm_insertionSort candGE (collectCands lines)
  refine ⟨?_, ?_, ?_, ?_, rfl⟩
  · simp only [extract_due_and_amount]
    cases hs : List.insertionSort candGE (collectCands lines) with
    | nil =>
      rw [hs] at hperm
      simp [hperm.symm.eq_nil]
    | cons best t =>
      rw [hs] at hperm
      constructor
      · intro hc; simp at hc
      · intro hc
        rw [hc] at hperm
        exact absurd hperm.eq_nil (by simp)
  · simp only [extract_due_and_amount]
    cases hs : List.insertionSort candGE (collectCands lines) with
    | nil =>
      rw [hs] at hperm
      simp [hperm.symm.eq_nil]
    | cons best t =>
      rw [hs] at hperm
      constructor
      · intro hc; simp at hc
      · intro hc
        rw [hc] at hperm
        exact absurd hperm.eq_nil (by simp)
  · intro d hd
    have : pass1 dtp lines = some d := by
      simp only [extract_due_and_amount] at hd
      cases hs : List.insertionSort candGE (collectCands lines) with
      | nil => rw [hs] at hd; exact hd
      | cons best t => rw [hs] at hd; exact hd
    exact pass1Go_some dtp lines lines 0 d this
  · intro hall
    have hnone : ∀ rest i, pass1Go dtp lines rest i = none := by
      intro rest
      induction rest with
      | nil => intro i; rfl
      | cons line rtl ih =>
        intro i
        unfold pass1Go
        by_cases hkw : matchAnyStar DATE_KEYWORDS line
        · rw [if_pos hkw, parse_date_any_none dtp hall]
          have hfs : ((find_nearby lines i 2).filter (fun c => c ≠ line)).findSome?
              (parse_date_any dtp) = none := by
            rw [List.findSome?_eq_none_iff]
            intro a _
            exact parse_date_any_none dtp hall a
          rw [hfs]
          exact ih (i + 1)
        · rw [if_neg hkw]
          exact ih (i + 1)
    simp only [extract_due_and_amount]
    cases hs : List.insertionSort candGE (collectCands lines) with
    | nil => exact hnone lines 0
    | cons best t => exact hnone lines 0

/-- C10, witness: a line list with an unparsable date token and no amount
token, under the always-raising external parser. -/
theorem C10_witness :
    ((extract_due_and_amount dtpFail ["due date soon".data]).amount = none ↔
      collectCands ["due date soon".data] = []) ∧
    ((∀ t b, dtpFail t b = Except.error ()) →
      (extract_due_and_amount dtpFail ["due date soon".data]).due_date = none) ∧
    extract_due_and_amount dtpFail [] = ⟨none, none, none⟩ :=
  have h := C10_total_shape dtpFail ["due date soon".data]
  ⟨h.1, h.2.2.2.1, h.2.2.2.2⟩

/-! ### C8 — the customer number token shape -/

theorem mem_pbind {α β : Type} {p : P α} {f : α → P β} {s : List Char}
    {x : β × List Char} :
    x ∈ (p >>= f) s ↔ ∃ ar ∈ p s, x ∈ f ar.1 ar.2 := by
  change x ∈ (((p s).map fun ar => f ar.1 ar.2).flatten) ↔ _
  simp only [List.mem_flatten, List.mem_map]
  constructor
  · rintro ⟨l, ⟨ar, har, rfl⟩, hx⟩
    exact ⟨ar, har, hx⟩
  · rintro ⟨ar, har, hx⟩
    exact ⟨f ar.1 ar.2, ⟨ar, har, rfl⟩, hx⟩

theorem mem_ppure {α : Type} {a : α} {s : List Char} {x : α × List Char} :
    x ∈ (pure a : P α) s ↔ x = (a, s) := by
  change x ∈ [(a, s)] ↔ _
  simp

theorem mem_palt {α : Type} {p q : P α} {s : List Char} {x : α × List Char} :
    x ∈ palt p q s ↔ x ∈ p s ∨ x ∈ q s := by
  simp [palt]

theorem mem_pchar {f : Char → Bool} {s : List Char} {x : Char × List Char} :
    x ∈ pchar f s → ∃ c t, s = c :: t ∧ f c ∧ x = (c, t) := by
  cases s with
  | nil => intro h; simp [pchar] at h
  | cons c t =>
    intro h
    simp only [pchar] at h
    split at h
    · simp at h
      exact ⟨c, t, rfl, by assumption, by simp [h]⟩
    · simp at h

theorem mem_pfail {α : Type} {s : List Char} {x : α × List Char} :
    x ∈ (pfail : P α) s → False := by
  intro h; simp [pfail] at h

/-- Soundness of greedy counted repetition of a character class. -/
theorem pcntG_pchar_sound (f : Char → Bool) :
    ∀ hi lo s ds r, (ds, r) ∈ pcntG (pchar f) lo hi s →
      s = ds ++ r ∧ lo ≤ ds.length ∧ ds.length ≤ hi ∧ ∀ c ∈ ds, f c := by
  intro hi
  induction hi with
  | zero =>
    intro lo s ds r h
    simp only [pcntG] at h
    split at h
    · rw [mem_ppure] at h
      rw [Prod.mk.injEq] at h
      obtain ⟨rfl, rfl⟩ := h
      simp_all
    · exact absurd h mem_pfail
  | succ hi ih =>
    intro lo s ds r h
    simp only [pcntG] at h
    rw [mem_palt] at h
    rcases h with h | h
    · rw [mem_pbind] at h
      obtain ⟨⟨c, t⟩, hc, h⟩ := h
      obtain ⟨c0, t0, rfl, hf, heq⟩ := mem_pchar hc
      rw [Prod.mk.injEq] at heq
      obtain ⟨rfl, rfl⟩ := heq
      rw [mem_pbind] at h
      obtain ⟨⟨as, r2⟩, has, h⟩ := h
      obtain ⟨rfl, h1, h2, h3⟩ := ih (lo - 1) _ as r2 has
      rw [mem_ppure] at h
      rw [Prod.mk.injEq] at h
      obtain ⟨rfl, rfl⟩ := h
      refine ⟨rfl, by simp; omega, by simp; omega, ?_⟩
      intro x hx
      rcases List.mem_cons.mp hx with rfl | hx
      · exact hf
      · exact h3 x hx
    · split at h
      · rw [mem_ppure] at h
        rw [Prod.mk.injEq] at h
        obtain ⟨rfl, rfl⟩ := h
        simp_all
      · exact absurd h mem_pfail

/-- Soundness of greedy unbounded repetition of a character class. -/
theorem pmanyG_pchar_sound (f : Char → Bool) :
    ∀ fuel s ds r, (ds, r) ∈ pmanyG (pchar f) fuel s →
      s = ds ++ r ∧ ∀ c ∈ ds, f c := by
  intro fuel
  induction fuel with
  | zero =>
    intro s ds r h
    rw [show pmanyG (pchar f) 0 = pure [] from rfl, mem_ppure] at h
    rw [Prod.mk.injEq] at h
    obtain ⟨rfl, rfl⟩ := h
    simp
  | succ fuel ih =>
    intro s ds r h
    simp only [pmanyG] at h
    rw [mem_palt] at h
    rcases h with h | h
    · rw [mem_pbind] at h
      obtain ⟨⟨c, t⟩, hc, h⟩ := h
      obtain ⟨c0, t0, rfl, hf, heq⟩ := mem_pchar hc
      rw [Prod.mk.injEq] at heq
      obtain ⟨rfl, rfl⟩ := heq
      rw [mem_pbind] at h
      obtain ⟨⟨as, r2⟩, has, h⟩ := h
      obtain ⟨rfl, h2⟩ := ih _ as r2 has
      rw [mem_ppure] at h
      rw [Prod.mk.injEq] at h
      obtain ⟨rfl, rfl⟩ := h
      refine ⟨rfl, ?_⟩
      intro x hx
      rcases List.mem_cons.mp hx with rfl | hx
      · exact hf
      · exact h2 x hx
    · rw [mem_ppure] at h
      rw [Prod.mk.injEq] at h
      obtain ⟨rfl, rfl⟩ := h
      simp

/-- Soundness of `\d+`. -/
theorem pmany1G_digit_sound (fuel : Nat) (s ds r : List Char)
    (h : (ds, r) ∈ pmany1G (pchar Char.isDigit) fuel s) :
    s = ds ++ r ∧ ds ≠ [] ∧ ∀ c ∈ ds, c.isDigit := by
  simp only [pmany1G] at h
  rw [mem_pbind] at h
  obtain ⟨⟨c, t⟩, hc, h⟩ := h
  obtain ⟨c0, t0, rfl, hf, heq⟩ := mem_pchar hc
  rw [Prod.mk.injEq] at heq
  obtain ⟨rfl, rfl⟩ := heq
  rw [mem_pbind] at h
  obtain ⟨⟨as, r2⟩, has, h⟩ := h
  obtain ⟨rfl, h2⟩ := pmanyG_pchar_sound Char.isDigit _ _ as r2 has
  rw [mem_ppure] at h
  rw [Prod.mk.injEq] at h
  obtain ⟨rfl, rfl⟩ := h
  refine ⟨rfl, by simp, ?_⟩
  intro x hx
  rcases List.mem_cons.mp hx with rfl | hx
  · exact hf
  · exact h2 x hx

/-- Soundness of `-\d+` (one customer-number group). -/
theorem custGroupP_sound (fuel : Nat) (s g r : List Char)
    (h : (g, r) ∈ custGroupP fuel s) :
    s = '-' :: (g ++ r) ∧ g ≠ [] ∧ ∀ c ∈ g, c.isDigit := by
  simp only [custGroupP] at h
  rw [mem_pbind] at h
  obtain ⟨⟨c, t⟩, hc, h⟩ := h
  obtain ⟨c0, t0, rfl, hf, heq⟩ := mem_pchar hc
  rw [Prod.mk.injEq] at heq
  obtain ⟨rfl, rfl⟩ := heq
  rw [mem_pbind] at h
  obtain ⟨⟨ds, r2⟩, hds, h⟩ := h
  obtain ⟨rfl, hne, hdig⟩ := pmany1G_digit_sound fuel _ ds r2 hds
  rw [mem_ppure] at h
  rw [Prod.mk.injEq] at h
  obtain ⟨rfl, rfl⟩ := h
  have hc0 : c = '-' := by simpa using hf
  subst hc0
  exact ⟨rfl, hne, hdig⟩

/-- Soundness of greedy repetition of customer-number groups. -/
theorem pmanyG_grp_sound (fli : Nat) :
    ∀ fuel s gs r, (gs, r) ∈ pmanyG (custGroupP fli) fuel s →
      s = (gs.map (fun g => '-' :: g)).flatten ++ r ∧
        ∀ g ∈ gs, g ≠ [] ∧ ∀ c ∈ g, c.isDigit := by
  intro fuel
  induction fuel with
  | zero =>
    intro s gs r h
    rw [show pmanyG (custGroupP fli) 0 = pure [] from rfl, mem_ppure] at h
    rw [Prod.mk.injEq] at h
    obtain ⟨rfl, rfl⟩ := h
    simp
  | succ fuel ih =>
    intro s gs r h
    simp only [pmanyG] at h
    rw [mem_palt] at h
    rcases h with h | h
    · rw [mem_pbind] at h
      obtain ⟨⟨g, t⟩, hg, h⟩ := h
      obtain ⟨rfl, hne, hdig⟩ := custGroupP_sound fli _ g t hg
      rw [mem_pbind] at h
      obtain ⟨⟨gs2, r2⟩, hgs, h⟩ := h
      obtain ⟨rfl, h2⟩ := ih _ gs2 r2 hgs
      rw [mem_ppure] at h
      rw [Prod.mk.injEq] at h
      obtain ⟨rfl, rfl⟩ := h
      refine ⟨by simp, ?_⟩
      intro x hx
      rcases List.mem_cons.mp hx with rfl | hx
      · exact ⟨hne, hdig⟩
      · exact h2 x hx
    · rw [mem_ppure] at h
      rw [Prod.mk.injEq] at h
      obtain ⟨rfl, rfl⟩ := h
      simp

/-- Soundness of `\d{2,}`. -/
theorem pDigitsGE_sound (n fuel : Nat) (s ds r : List Char)
    (h : (ds, r) ∈ pDigitsGE n fuel s) :
    s = ds ++ r ∧ n ≤ ds.length ∧ ∀ c ∈ ds, c.isDigit := by
  simp only [pDigitsGE] at h
  rw [mem_pbind] at h
  obtain ⟨⟨xs, t⟩, hxs, h⟩ := h
  obtain ⟨rfl, hlo, _, hdig1⟩ := pcntG_pchar_sound Char.isDigit n n _ xs t hxs
  rw [mem_pbind] at h
  obtain ⟨⟨ys, r2⟩, hys, h⟩ := h
  obtain ⟨rfl, hdig2⟩ := pmanyG_pchar_sound Char.isDigit fuel _ ys r2 hys
  rw [mem_ppure] at h
  rw [Prod.mk.injEq] at h
  obtain ⟨rfl, rfl⟩ := h
  refine ⟨by simp, by simp; omega, ?_⟩
  intro x hx
  rcases List.mem_append.mp hx with hx | hx
  · exact hdig1 x hx
  · exact hdig2 x hx

/-- Soundness of `(?:-\d+){3,}`. -/
theorem pGroupsGE3_sound (fuel : Nat) (s r : List Char)
    (gs : List (List Char)) (h : (gs, r) ∈ pGroupsGE3 fuel s) :
    s = (gs.map (fun g => '-' :: g)).flatten ++ r ∧ 3 ≤ gs.length ∧
      ∀ g ∈ gs, g ≠ [] ∧ ∀ c ∈ g, c.isDigit := by
  simp only [pGroupsGE3] at h
  rw [mem_pbind] at h
  obtain ⟨⟨a, t1⟩, ha, h⟩ := h
  obtain ⟨rfl, hane, hadig⟩ := custGroupP_sound fuel _ a t1 ha
  rw [mem_pbind] at h
  obtain ⟨⟨b, t2⟩, hb, h⟩ := h
  obtain ⟨rfl, hbne, hbdig⟩ := custGroupP_sound fuel _ b t2 hb
  rw [mem_pbind] at h
  obtain ⟨⟨c, t3⟩, hc, h⟩ := h
  obtain ⟨rfl, hcne, hcdig⟩ := custGroupP_sound fuel _ c t3 hc
  rw [mem_pbind] at h
  obtain ⟨⟨rest, r2⟩, hrest, h⟩ := h
  obtain ⟨rfl, hrprops⟩ := pmanyG_grp_sound fuel fuel _ rest r2 hrest
  rw [mem_ppure] at h
  rw [Prod.mk.injEq] at h
  obtain ⟨rfl, rfl⟩ := h
  refine ⟨by simp, by simp, ?_⟩
  intro g hg
  rcases List.mem_cons.mp hg with rfl | hg
  · exact ⟨hane, hadig⟩
  rcases List.mem_cons.mp hg with rfl | hg
  · exact ⟨hbne, hbdig⟩
  rcases List.mem_cons.mp hg with rfl | hg
  · exact ⟨hcne, hcdig⟩
  · exact hrprops g hg

/-- Soundness of the full `CUSTOMER_NO` body. -/
theorem CUSTOMER_NO_P_sound (fuel : Nat) (s r : List Char)
    (d0 : List Char) (gs : List (List Char))
    (h : ((d0, gs), r) ∈ CUSTOMER_NO_P fuel s) :
    s = custTok d0 gs ++ r ∧ 2 ≤ d0.length ∧ (∀ c ∈ d0, c.isDigit) ∧
      3 ≤ gs.length ∧ ∀ g ∈ gs, g ≠ [] ∧ ∀ c ∈ g, c.isDigit := by
  simp only [CUSTOMER_NO_P] at h
  rw [mem_pbind] at h
  obtain ⟨⟨ds, t⟩, hds, h⟩ := h
  obtain ⟨rfl, h2, hdig⟩ := pDigitsGE_sound 2 fuel _ ds t hds
  rw [mem_pbind] at h
  obtain ⟨⟨gs2, r2⟩, hgs, h⟩ := h
  obtain ⟨rfl, h3, hprops⟩ := pGroupsGE3_sound fuel _ r2 gs2 hgs
  rw [mem_ppure] at h
  rw [Prod.mk.injEq, Prod.mk.injEq] at h
  obtain ⟨⟨rfl, rfl⟩, rfl⟩ := h
  exact ⟨by simp [custTok], h2, hdig, h3, hprops⟩

/-- The character preceding the position after consuming `l` (the initial
`prev` when `l` is empty). -/
def lastOpt (prev : Option Char) (l : List Char) : Option Char :=
  match l.getLast? with
  | some c => some c
  | none => prev

theorem lastOpt_cons (prev : Option Char) (c : Char) (l : List Char) :
    lastOpt prev (c :: l) = lastOpt (some c) l := by
  cases hl : l.getLast? with
  | some d =>
    unfold lastOpt
    rw [List.getLast?_cons, hl]
    simp [hl]
  | none =>
    have : l = [] := by
      cases l with
      | nil => rfl
      | cons x xs => simp [List.getLast?_cons] at hl
    subst this
    simp [lastOpt]

/-- `re.search` finds a leftmost match: the returned prefix decomposes the
input, the matcher succeeds right after it, and fails at every earlier
position. -/
theorem searchM_spec {β : Type} (m : M β) :
    ∀ (l : List Char) (prev : Option Char) (pre : List Char) (b : β)
      (r : List Char),
      searchM m prev l = some (pre, b, r) →
      (∃ suf, l = pre ++ suf ∧ m (lastOpt prev pre) suf = some (b, r)) ∧
      ∀ pre2 suf2, l = pre2 ++ suf2 → pre2.length < pre.length →
        m (lastOpt prev pre2) suf2 = none := by
  intro l
  induction l with
  | nil =>
    intro prev pre b r h
    simp only [searchM] at h
    cases hm : m prev [] with
    | none => rw [hm] at h; simp at h
    | some br =>
      obtain ⟨b0, r0⟩ := br
      rw [hm] at h
      simp only [Option.map] at h
      have h2 : (([], b0, r0) : List Char × β × List Char) = (pre, b, r) :=
        Option.some.inj h
      rw [Prod.mk.injEq, Prod.mk.injEq] at h2
      obtain ⟨rfl, rfl, rfl⟩ := h2
      refine ⟨⟨[], rfl, hm⟩, ?_⟩
      intro pre2 suf2 _ hlt
      simp at hlt
  | cons c t ih =>
    intro prev pre b r h
    simp only [searchM] at h
    cases hm : m prev (c :: t) with
    | some br =>
      obtain ⟨b0, r0⟩ := br
      rw [hm] at h
      have h2 : ((b0, r0) : β × List Char) = ((pre, b, r).2.1, (pre, b, r).2.2) := by
        have h3 := Option.some.inj h
        rw [Prod.mk.injEq, Prod.mk.injEq] at h3
        exact Prod.mk.injEq .. ▸ ⟨h3.2.1, h3.2.2⟩
      have hpre : pre = [] := by
        have h3 := Option.some.inj h
        rw [Prod.mk.injEq] at h3
        exact h3.1.symm
      subst hpre
      rw [Prod.mk.injEq] at h2
      obtain ⟨rfl, rfl⟩ := h2
      refine ⟨⟨c :: t, rfl, hm⟩, ?_⟩
      intro pre2 suf2 _ hlt
      simp at hlt
    | none =>
      rw [hm] at h
      cases hrec : searchM m (some c) t with
      | none => rw [hrec] at h; simp at h
      | some pbr =>
        obtain ⟨pre1, b1, r1⟩ := pbr
        rw [hrec] at h
        simp only [Option.map] at h
        have h2 : ((c :: pre1, b1, r1) : List Char × β × List Char) =
            (pre, b, r) := Option.some.inj h
        rw [Prod.mk.injEq, Prod.mk.injEq] at h2
        obtain ⟨rfl, rfl, rfl⟩ := h2
        obtain ⟨⟨suf, rfl, hmat⟩, hleft⟩ := ih (some c) pre1 b1 r1 hrec
        refine ⟨⟨suf, by simp, by rwa [lastOpt_cons]⟩, ?_⟩
        intro pre2 suf2 heq hlt
        cases pre2 with
        | nil =>
          simp only [List.nil_append] at heq
          subst heq
          exact hm
        | cons c2 pre2t =>
          simp only [List.cons_append, List.cons.injEq] at heq
          obtain ⟨rfl, heq2⟩ := heq
          rw [lastOpt_cons]
          exact hleft pre2t suf2 heq2 (by simpa using hlt)

/-- Accumulator-style split of a character list at hyphens. -/
def splitDashAux : List Char → List Char → List (List Char)
  | [], acc => [acc.reverse]
  | '-' :: t, acc => acc.reverse :: splitDashAux t []
  | c :: t, acc => splitDashAux t (c :: acc)

/-- Split a token at hyphens (the claim's reading of "groups"). -/
def splitDash (l : List Char) : List (List Char) :=
  splitDashAux l []

/-- The token shape asserted by the claim: at least four hyphen-separated
groups, each of at least two digits. -/
def claimCustShapeB (tok : List Char) : Bool :=
  let gs := splitDash tok
  decide (4 ≤ gs.length) &&
    gs.all (fun g => decide (2 ≤ g.length) && g.all Char.isDigit)

/-- C8, counterexample: the extractor accepts `12-3-4-5` as the customer
number although three of its groups have a single digit, refuting the
claim's "every group has at least two digits" shape. -/
theorem C8_counterexample :
    (∃ m, extract_after_header c8Text = Except.ok (some m) ∧
      m.customer_number = "12-3-4-5") ∧
    claimCustShapeB "12-3-4-5".data = false := by
  constructor
  · refine ⟨{ customer_number := "12-3-4-5"
              statement_date := "August 1, 2025"
              payment_due_date := "August 28, 2025"
              credit_limit := "20,000.00"
              total_amount_due := "5,000.00"
              minimum_amount_due := "100.00"
              source_layout := "table_row" }, by decide, by decide⟩
  · decide

/-- C8, amended: the extracted customer number is the first (leftmost)
token of the blob matching `CUSTOMER_NO`: a leading group of at least two
digits followed by at least three hyphen-separated groups of at least one
digit each (so at least four groups in total, but the later groups may be
single digits). -/
theorem C8_amended (blob pre tok rest : List Char)
    (h : CUSTOMER_NO_search blob = some (pre, tok, rest)) :
    blob = pre ++ tok ++ rest ∧
    (∃ d0 gs, tok = custTok d0 gs ∧ 2 ≤ d0.length ∧ (∀ c ∈ d0, c.isDigit) ∧
      3 ≤ gs.length ∧ ∀ g ∈ gs, g ≠ [] ∧ ∀ c ∈ g, c.isDigit) ∧
    ∀ pre2 suf2, blob = pre2 ++ suf2 → pre2.length < pre.length →
      CUSTOMER_NO_M (lastOpt none pre2) suf2 = none := by
  unfold CUSTOMER_NO_search at h
  obtain ⟨⟨suf, rfl, hmat⟩, hleft⟩ :=
    searchM_spec CUSTOMER_NO_M _ none pre tok rest h
  unfold CUSTOMER_NO_M at hmat
  split at hmat
  · cases hf : (CUSTOMER_NO_P suf.length suf).find? (fun pr => afterOk pr.2) with
    | none => rw [hf] at hmat; simp at hmat
    | some pr =>
      obtain ⟨⟨d0, gs⟩, r0⟩ := pr
      rw [hf] at hmat
      have h2 : ((custTok d0 gs, r0) : List Char × List Char) = (tok, rest) :=
        Option.some.inj hmat
      rw [Prod.mk.injEq] at h2
      obtain ⟨rfl, rfl⟩ := h2
      have hmem := List.mem_of_find?_eq_some hf
      obtain ⟨hsuf, h2b, hdig, h3, hprops⟩ :=
        CUSTOMER_NO_P_sound suf.length suf r0 d0 gs hmem
      subst hsuf
      exact ⟨by simp, ⟨d0, gs, rfl, h2b, hdig, h3, hprops⟩, hleft⟩
  · simp at hmat

/-- C8, witness: the leftmost match in a small blob. -/
theorem C8_witness :
    ("a 12-3-4-5 b".data : List Char) =
        "a ".data ++ "12-3-4-5".data ++ " b".data ∧
    (∃ d0 gs, "12-3-4-5".data = custTok d0 gs ∧ 2 ≤ d0.length ∧
      (∀ c ∈ d0, c.isDigit) ∧ 3 ≤ gs.length ∧
      ∀ g ∈ gs, g ≠ [] ∧ ∀ c ∈ g, c.isDigit) ∧
    ∀ pre2 suf2, "a 12-3-4-5 b".data = pre2 ++ suf2 →
      pre2.length < "a ".data.length →
      CUSTOMER_NO_M (lastOpt none pre2) suf2 = none :=
  C8_amended "a 12-3-4-5 b".data "a ".data "12-3-4-5".data " b".data (by decide)

/-! ### C7 — header order independence -/

/-- The six header labels, as strings. -/
def HEADER_LABELS : List String :=
  ["CUSTOMER NUMBER", "STATEMENT DATE", "CREDIT LIMIT", "TOTAL AMOUNT DUE",
   "MINIMUM AMOUNT DUE", "PAYMENT DUE DATE"]

/-- A word is nonempty, starts with a non-whitespace character, and contains
no whitespace at all. -/
def goodWordB (w : List Char) : Bool :=
  match w with
  | [] => false
  | _ :: _ => w.all (fun c => !isWS c)

/-- The label word lists are exactly the `HEADER_LABELS` split at their
single spaces, and every word is whitespace-free. -/
theorem hdr_facts :
    HEADER_LABELS.map String.data = hdrLabels.map joinSp ∧
    ∀ ws ∈ hdrLabels, ws ≠ [] ∧ ∀ w ∈ ws, goodWordB w = true := by
  refine ⟨by decide, by decide⟩

theorem joinSp_cons₂ (w v : List Char) (rest : List (List Char)) :
    joinSp (w :: v :: rest) = w ++ ' ' :: joinSp (v :: rest) := rfl

theorem joinSp_append (xs zs : List (List Char)) (hx : xs ≠ []) (hz : zs ≠ []) :
    joinSp (xs ++ zs) = joinSp xs ++ ' ' :: joinSp zs := by
  induction xs with
  | nil => exact absurd rfl hx
  | cons x xt ih =>
    cases xt with
    | nil =>
      cases zs with
      | nil => exact absurd rfl hz
      | cons z zt => simp [joinSp_cons₂, joinSp]
    | cons y yt =>
      have h2 : (x :: y :: yt) ++ zs = x :: ((y :: yt) ++ zs) := rfl
      rw [h2]
      have h3 : (y :: yt) ++ zs = y :: (yt ++ zs) := rfl
      rw [show joinSp (x :: ((y :: yt) ++ zs)) =
            x ++ ' ' :: joinSp ((y :: yt) ++ zs) by rw [h3]; rfl]
      rw [ih (by simp), joinSp_cons₂]
      simp

/-- Every member of a word list occurs in its space-join with a space (or
nothing) on each side. -/
theorem joinSp_mem_split (ls : List (List Char)) (x : List Char)
    (hx : x ∈ ls) :
    ∃ a b, joinSp ls = a ++ x ++ b ∧ (a = [] ∨ a.getLast? = some ' ') ∧
      (b = [] ∨ b.head? = some ' ') := by
  induction ls with
  | nil => simp at hx
  | cons y rest ih =>
    rcases List.mem_cons.mp hx with rfl | hx
    · cases rest with
      | nil => exact ⟨[], [], by simp [joinSp], Or.inl rfl, Or.inl rfl⟩
      | cons v vt =>
        exact ⟨[], ' ' :: joinSp (v :: vt), by simp [joinSp_cons₂],
          Or.inl rfl, Or.inr rfl⟩
    · obtain ⟨a, b, hab, hal, hbr⟩ := ih hx
      have hrest : rest ≠ [] := by
        intro hr; subst hr; simp at hx
      obtain ⟨v, vt, rfl⟩ : ∃ v vt, rest = v :: vt := by
        cases rest with
        | nil => exact absurd rfl hrest
        | cons v vt => exact ⟨v, vt, rfl⟩
      refine ⟨y ++ ' ' :: a, b, ?_, ?_, hbr⟩
      · rw [joinSp_cons₂, hab]
        simp
      · right
        cases a with
        | nil => simp
        | cons a0 at0 =>
          rcases hal with hal | hal
          · simp at hal
          · rw [List.getLast?_append, List.getLast?_cons_cons, hal]
            rfl

/-- A case-insensitive literal consumes itself. -/
theorem ciStrip_self (w : List Char) : ∀ b, ciStrip w (w ++ b) = some b := by
  induction w with
  | nil => intro b; rfl
  | cons c t ih =>
    intro b
    simp only [List.cons_append, ciStrip, if_pos rfl]
    exact ih b

theorem joinSp_head_cons (w : List Char) (rest : List (List Char)) (b : List Char) :
    joinSp (w :: rest) ++ b = w ++ ((if rest = [] then [] else ' ' :: joinSp rest) ++ b) := by
  cases rest with
  | nil => simp [joinSp]
  | cons v vt => simp [joinSp_cons₂]

/-- The label matcher consumes the space-joined words of the label and
returns the remaining input. -/
theorem phraseAt_consume (ws : List (List Char)) (hne : ws ≠ [])
    (hgood : ∀ w ∈ ws, goodWordB w = true) :
    ∀ b, phraseAt ws (joinSp ws ++ b) = some b := by
  induction ws with
  | nil => exact absurd rfl hne
  | cons w rest ih =>
    intro b
    cases rest with
    | nil =>
      show ciStrip w (joinSp [w] ++ b) = some b
      rw [show joinSp [w] = w from rfl]
      exact ciStrip_self w b
    | cons v vt =>
      rw [joinSp_cons₂]
      have h1 : (w ++ ' ' :: joinSp (v :: vt)) ++ b =
          w ++ (' ' :: (joinSp (v :: vt) ++ b)) := by simp
      rw [h1]
      show phraseAt (w :: v :: vt) _ = some b
      simp only [phraseAt, ciStrip_self]
      have hv := hgood v (by simp)
      obtain ⟨c, cs, rfl⟩ : ∃ c cs, v = c :: cs := by
        cases v with
        | nil => simp [goodWordB] at hv
        | cons c cs => exact ⟨c, cs, rfl⟩
      have hcw : isWS c = false := by
        simp only [goodWordB, List.all_eq_true] at hv
        simpa using hv c (by simp)
      have hhead : joinSp ((c :: cs) :: vt) ++ b = c :: (cs ++
          ((if vt = [] then [] else ' ' :: joinSp vt) ++ b)) := by
        rw [joinSp_head_cons]
        simp
      have hws : isWS ' ' = true := by decide
      rw [if_pos hws]
      have hdrop : List.dropWhile isWS (joinSp ((c :: cs) :: vt) ++ b) =
          joinSp ((c :: cs) :: vt) ++ b := by
        rw [hhead, List.dropWhile_cons, hcw]
        simp
      have hstep : List.dropWhile isWS (' ' :: (joinSp ((c :: cs) :: vt) ++ b)) =
          joinSp ((c :: cs) :: vt) ++ b := by
        rw [List.dropWhile_cons, if_pos hws, hdrop]
      rw [hstep]
      exact ih (by simp) (fun w hw => hgood w (List.mem_cons_of_mem _ hw)) b

/-- If the label matches at some position, the line scan succeeds. -/
theorem phraseScan_of_split (ws : List (List Char)) :
    ∀ (a : List Char) (prev : Option Char) (s : List Char),
      phraseHereB ws (lastOpt prev a) s = true →
      phraseScan ws prev (a ++ s) = true := by
  intro a
  induction a with
  | nil =>
    intro prev s h
    cases s with
    | nil => exact h
    | cons c t =>
      simp only [List.nil_append, phraseScan]
      rw [show lastOpt prev [] = prev from rfl] at h
      rw [h, Bool.true_or]
  | cons c at' ih =>
    intro prev s h
    rw [lastOpt_cons] at h
    simp only [List.cons_append, phraseScan, List.append_eq]
    rw [ih (some c) s h, Bool.or_true]

/-- Any permutation of the six labels, joined by single spaces, matches
`HEADER_ANY_ORDER`. -/
theorem header_of_perm (ys : List (List Char))
    (hperm : ys.Perm (HEADER_LABELS.map String.data)) :
    HEADER_ANY_ORDER (joinSp ys) = true := by
  have hmem : ∀ y ∈ ys, ∃ ws ∈ hdrLabels, y = joinSp ws := by
    intro y hy
    have : y ∈ HEADER_LABELS.map String.data := hperm.mem_iff.mp hy
    rw [hdr_facts.1] at this
    obtain ⟨ws, hws, hwe⟩ := List.mem_map.mp this
    exact ⟨ws, hws, hwe.symm⟩
  unfold HEADER_ANY_ORDER
  have hne : joinSp ys ≠ [] := by
    have hlen : ys.length = 6 := by
      rw [hperm.length_eq]; decide
    obtain ⟨y, t, rfl⟩ : ∃ y t, ys = y :: t := by
      cases ys with
      | nil => simp at hlen
      | cons y t => exact ⟨y, t, rfl⟩
    obtain ⟨ws, hws, rfl⟩ := hmem y (by simp)
    have hwne : ws ≠ [] := ((hdr_facts.2 ws hws)).1
    obtain ⟨w, wt, rfl⟩ : ∃ w wt, ws = w :: wt := by
      cases ws with
      | nil => exact absurd rfl hwne
      | cons w wt => exact ⟨w, wt, rfl⟩
    have hw := (hdr_facts.2 _ hws).2 w (by simp)
    obtain ⟨c, cs, rfl⟩ : ∃ c cs, w = c :: cs := by
      cases w with
      | nil => simp [goodWordB] at hw
      | cons c cs => exact ⟨c, cs, rfl⟩
    cases t with
    | nil =>
      cases wt with
      | nil => simp [joinSp]
      | cons v vt => simp [joinSp, joinSp_cons₂]
    | cons z zt =>
      rw [joinSp_cons₂]
      simp
  rw [Bool.and_eq_true, List.all_eq_true]
  refine ⟨by simpa using hne, ?_⟩
  intro ws hws
  have hx : joinSp ws ∈ ys := by
    rw [hperm.mem_iff, hdr_facts.1]
    exact List.mem_map.mpr ⟨ws, hws, rfl⟩
  obtain ⟨a, b, hab, hal, hbr⟩ := joinSp_mem_split ys (joinSp ws) hx
  have hsplit : joinSp ys = a ++ (joinSp ws ++ b) := by
    rw [hab]; simp
  rw [hsplit]
  apply phraseScan_of_split
  unfold phraseHereB
  have hbd : boundaryOk (lastOpt none a) = true := by
    rcases hal with rfl | hal
    · rfl
    · unfold lastOpt
      rw [hal]
      decide
  rw [hbd]
  rw [phraseAt_consume ws (hdr_facts.2 ws hws).1 (hdr_facts.2 ws hws).2]
  rcases hbr with rfl | hbr
  · rfl
  · unfold afterOk
    cases b with
    | nil => rfl
    | cons b0 bt =>
      simp only [List.head?_cons, Option.some.injEq] at hbr
      subst hbr
      rfl

theorem pysplitAux_word (w : List Char) (hword : ∀ c ∈ w, isWS c = false) :
    ∀ t acc, pysplitAux (w ++ t) acc = pysplitAux t (w.reverse ++ acc) := by
  induction w with
  | nil => intro t acc; simp
  | cons c wt ih =>
    intro t acc
    have hc : isWS c = false := hword c (by simp)
    simp only [List.cons_append, pysplitAux, hc, Bool.false_eq_true, if_false,
      List.append_eq]
    rw [ih (fun x hx => hword x (List.mem_cons_of_mem _ hx)) t (c :: acc)]
    simp

/-- Splitting a single-space join of whitespace-free words recovers the
words. -/
theorem pysplit_joinSp : ∀ ws : List (List Char),
    (∀ w ∈ ws, goodWordB w = true) → pysplit (joinSp ws) = ws := by
  intro ws
  induction ws with
  | nil => intro _; rfl
  | cons w rest ih =>
    intro hgood
    have hw := hgood w (by simp)
    have hwne : w ≠ [] := by
      cases w with
      | nil => simp [goodWordB] at hw
      | cons c cs => simp
    have hwchars : ∀ c ∈ w, isWS c = false := by
      intro c hc
      cases w with
      | nil => simp at hc
      | cons c0 cs0 =>
        simp only [goodWordB, List.all_eq_true] at hw
        simpa using hw c hc
    cases rest with
    | nil =>
      show pysplitAux (joinSp [w]) [] = [w]
      rw [show joinSp [w] = w from rfl]
      rw [show (w : List Char) = w ++ [] by simp]
      rw [pysplitAux_word w hwchars [] []]
      simp only [pysplitAux]
      rw [if_neg (by simpa using hwne)]
      simp
    | cons v vt =>
      show pysplitAux (joinSp (w :: v :: vt)) [] = w :: v :: vt
      rw [joinSp_cons₂]
      rw [show w ++ ' ' :: joinSp (v :: vt) = w ++ (' ' :: joinSp (v :: vt)) from rfl]
      rw [pysplitAux_word w hwchars (' ' :: joinSp (v :: vt)) []]
      simp only [pysplitAux, show isWS ' ' = true from rfl, if_true]
      rw [if_neg (by simpa using hwne)]
      rw [show pysplitAux (joinSp (v :: vt)) [] = v :: vt from
        ih (fun x hx => hgood x (List.mem_cons_of_mem _ hx))]
      simp

theorem joinSp_head?_cons (c : Char) (cs : List Char)
    (rest : List (List Char)) :
    (joinSp ((c :: cs) :: rest)).head? = some c := by
  cases rest with
  | nil => rfl
  | cons v vt => rw [joinSp_cons₂]; rfl

theorem joinSp_getLast? (ws : List (List Char)) :
    ws ≠ [] → (∀ w ∈ ws, goodWordB w = true) →
      ∃ c, (joinSp ws).getLast? = some c ∧ isWS c = false := by
  induction ws with
  | nil => intro h _; exact absurd rfl h
  | cons w rest ih =>
    intro _ hgood
    have hw := hgood w (by simp)
    have hwne : w ≠ [] := by
      cases w with
      | nil => simp [goodWordB] at hw
      | cons c cs => simp
    cases rest with
    | nil =>
      refine ⟨w.getLast hwne, ?_, ?_⟩
      · show w.getLast? = some (w.getLast hwne)
        exact List.getLast?_eq_getLast w hwne
      · cases w with
        | nil => exact absurd rfl hwne
        | cons c0 cs0 =>
          simp only [goodWordB, List.all_eq_true] at hw
          simpa using hw _ (List.getLast_mem hwne)
    | cons v vt =>
      obtain ⟨c, hc, hcw⟩ := ih (by simp)
        (fun x hx => hgood x (List.mem_cons_of_mem _ hx))
      refine ⟨c, ?_, hcw⟩
      rw [joinSp_cons₂, List.getLast?_append]
      rw [show (' ' :: joinSp (v :: vt) : List Char) =
            [' '] ++ joinSp (v :: vt) from rfl, List.getLast?_append, hc]
      rfl

theorem pystrip_eq_self (l : List Char)
    (hh : ∀ c, l.head? = some c → isWS c = false)
    (hl : ∀ c, l.getLast? = some c → isWS c = false) :
    pystrip l = l := by
  unfold pystrip
  have h1 : l.dropWhile isWS = l := by
    cases l with
    | nil => rfl
    | cons c t =>
      rw [List.dropWhile_cons, hh c rfl]
      simp
  rw [h1]
  have h2 : l.reverse.dropWhile isWS = l.reverse := by
    cases hr : l.reverse with
    | nil => rfl
    | cons c t =>
      rw [List.dropWhile_cons]
      have : l.getLast? = some c := by
        rw [← List.head?_reverse, hr]
        rfl
      rw [hl c this]
      simp
  rw [h2, List.reverse_reverse]

theorem joinSp_flatten : ∀ xss : List (List (List Char)),
    (∀ x ∈ xss, x ≠ []) → joinSp (xss.map joinSp) = joinSp xss.flatten := by
  intro xss
  induction xss with
  | nil => intro _; rfl
  | cons x rest ih =>
    intro hne
    cases rest with
    | nil => simp [joinSp]
    | cons y yt =>
      have hx : x ≠ [] := hne x (by simp)
      have hfl : ((y :: yt) : List (List (List Char))).flatten ≠ [] := by
        have hy : y ≠ [] := hne y (by simp)
        cases y with
        | nil => exact absurd rfl hy
        | cons w wt => simp
      rw [show joinSp (List.map joinSp (x :: y :: yt)) =
            joinSp x ++ ' ' :: joinSp (List.map joinSp (y :: yt)) by
          rw [List.map_cons, List.map_cons]; rfl]
      rw [ih (fun z hz => hne z (List.mem_cons_of_mem _ hz))]
      rw [show ((x :: y :: yt) : List (List (List Char))).flatten =
            x ++ ((y :: yt) : List (List (List Char))).flatten by simp]
      rw [joinSp_append x _ hx hfl]

theorem exists_wss : ∀ ys : List (List Char),
    (∀ y ∈ ys, ∃ ws ∈ hdrLabels, y = joinSp ws) →
      ∃ wss : List (List (List Char)),
        ys = wss.map joinSp ∧ ∀ ws ∈ wss, ws ∈ hdrLabels := by
  intro ys
  induction ys with
  | nil => intro _; exact ⟨[], rfl, by simp⟩
  | cons y t ih =>
    intro h
    obtain ⟨ws, hws, rfl⟩ := h y (by simp)
    obtain ⟨wss, rfl, hall⟩ := ih (fun z hz => h z (List.mem_cons_of_mem _ hz))
    refine ⟨ws :: wss, by simp, ?_⟩
    intro w hw
    rcases List.mem_cons.mp hw with rfl | hw
    · exact hws
    · exact hall w hw

/-- A permuted header line is already whitespace-normalized. -/
theorem normalizeLine_of_perm (ys : List (List Char))
    (hperm : ys.Perm (HEADER_LABELS.map String.data)) :
    normalizeLine (joinSp ys) = joinSp ys := by
  have hmem : ∀ y ∈ ys, ∃ ws ∈ hdrLabels, y = joinSp ws := by
    intro y hy
    have : y ∈ HEADER_LABELS.map String.data := hperm.mem_iff.mp hy
    rw [hdr_facts.1] at this
    obtain ⟨ws, hws, hwe⟩ := List.mem_map.mp this
    exact ⟨ws, hws, hwe.symm⟩
  obtain ⟨wss, rfl, hall⟩ := exists_wss ys hmem
  rw [joinSp_flatten wss (fun x hx => (hdr_facts.2 x (hall x hx)).1)]
  have hgood : ∀ w ∈ wss.flatten, goodWordB w = true := by
    intro w hw
    obtain ⟨ws, hws, hmemw⟩ := List.mem_flatten.mp hw
    exact (hdr_facts.2 ws (hall ws hws)).2 w hmemw
  cases hfl : wss.flatten with
  | nil => rfl
  | cons w wt =>
    rw [← hfl]
    have hwne : ∃ c cs, w = c :: cs := by
      have hw := hgood w (hfl ▸ List.mem_cons_self _ _)
      cases w with
      | nil => simp [goodWordB] at hw
      | cons c cs => exact ⟨c, cs, rfl⟩
    obtain ⟨c, cs, rfl⟩ := hwne
    unfold normalizeLine
    rw [pystrip_eq_self _ ?_ ?_]
    · rw [pysplit_joinSp wss.flatten hgood]
    · intro d hd
      rw [hfl, joinSp_head?_cons] at hd
      have hcgood := hgood (c :: cs) (hfl ▸ List.mem_cons_self _ _)
      simp only [Option.some.injEq] at hd
      subst hd
      simp only [goodWordB, List.all_eq_true] at hcgood
      simpa using hcgood c (by simp)
    · intro d hd
      obtain ⟨e, he, hew⟩ := joinSp_getLast? wss.flatten (by rw [hfl]; simp) hgood
      rw [he] at hd
      simp only [Option.some.injEq] at hd
      subst hd
      exact hew

/-- The first header line after a header-free prefix is found at the
prefix's index. -/
theorem findHeaderIdx_append (pre : List (List Char)) (h : List Char)
    (rest : List (List Char))
    (hpre : ∀ l ∈ pre, HEADER_ANY_ORDER (normalizeLine l) = false)
    (hh : HEADER_ANY_ORDER (normalizeLine h) = true) :
    findHeaderIdx (pre ++ h :: rest) = some pre.length := by
  induction pre with
  | nil =>
    simp only [List.nil_append, findHeaderIdx, hh, if_true, List.length_nil]
  | cons l pt ih =>
    have hl : HEADER_ANY_ORDER (normalizeLine l) = false := hpre l (by simp)
    simp only [List.cons_append, findHeaderIdx, hl, Bool.false_eq_true, if_false,
      List.append_eq]
    rw [ih (fun x hx => hpre x (List.mem_cons_of_mem _ hx))]
    rfl

/-- C7: any permutation of the six labels joined into a single
whitespace-normalized line is recognized as the header by Strategy C, and
the extractor's output does not depend on which permutation forms the
header line. -/
theorem C7_header_order_independent (perm1 perm2 : List String)
    (pre rest : List (List Char))
    (h1 : perm1.Perm HEADER_LABELS) (h2 : perm2.Perm HEADER_LABELS)
    (hpre : ∀ l ∈ pre, HEADER_ANY_ORDER (normalizeLine l) = false) :
    HEADER_ANY_ORDER (normalizeLine (joinSp (perm1.map String.data))) = true ∧
    extractCore (pre ++ joinSp (perm1.map String.data) :: rest) =
      extractCore (pre ++ joinSp (perm2.map String.data) :: rest) := by
  have hp1 : (perm1.map String.data).Perm (HEADER_LABELS.map String.data) :=
    h1.map _
  have hp2 : (perm2.map String.data).Perm (HEADER_LABELS.map String.data) :=
    h2.map _
  have hh1 : HEADER_ANY_ORDER (normalizeLine (joinSp (perm1.map String.data))) = true := by
    rw [normalizeLine_of_perm _ hp1]
    exact header_of_perm _ hp1
  have hh2 : HEADER_ANY_ORDER (normalizeLine (joinSp (perm2.map String.data))) = true := by
    rw [normalizeLine_of_perm _ hp2]
    exact header_of_perm _ hp2
  refine ⟨hh1, ?_⟩
  have hf1 := findHeaderIdx_append pre _ rest hpre hh1
  have hf2 := findHeaderIdx_append pre _ rest hpre hh2
  have hd1 : (pre ++ joinSp (perm1.map String.data) :: rest).drop (pre.length + 1) = rest := by
    rw [show pre ++ joinSp (perm1.map String.data) :: rest =
          (pre ++ [joinSp (perm1.map String.data)]) ++ rest by simp]
    rw [show pre.length + 1 = (pre ++ [joinSp (perm1.map String.data)]).length by simp]
    exact List.drop_left _ _
  have hd2 : (pre ++ joinSp (perm2.map String.data) :: rest).drop (pre.length + 1) = rest := by
    rw [show pre ++ joinSp (perm2.map String.data) :: rest =
          (pre ++ [joinSp (perm2.map String.data)]) ++ rest by simp]
    rw [show pre.length + 1 = (pre ++ [joinSp (perm2.map String.data)]).length by simp]
    exact List.drop_left _ _
  unfold extractCore
  rw [hf1, hf2]
  simp only [hd1, hd2]

/-- C7, witness: the identity permutation and a rotation yield the same
extraction. -/
theorem C7_witness :
    HEADER_ANY_ORDER (normalizeLine (joinSp (HEADER_LABELS.map String.data))) = true ∧
    extractCore ([] ++ joinSp (HEADER_LABELS.map String.data) :: []) =
      extractCore ([] ++ joinSp
        ((["PAYMENT DUE DATE", "CUSTOMER NUMBER", "STATEMENT DATE",
           "CREDIT LIMIT", "TOTAL AMOUNT DUE", "MINIMUM AMOUNT DUE"] :
          List String).map String.data) :: []) :=
  C7_header_order_independent HEADER_LABELS
    ["PAYMENT DUE DATE", "CUSTOMER NUMBER", "STATEMENT DATE", "CREDIT LIMIT",
     "TOTAL AMOUNT DUE", "MINIMUM AMOUNT DUE"] [] []
    (by decide) (by decide) (fun l hl => absurd hl (List.not_mem_nil l))

/-! ### C3 — the three-money sort invariant -/

/-- First occurrences of distinct tokens, in encounter order. -/
def dedupFirst (seen : List (List Char)) : List (List Char) → List (List Char)
  | [] => []
  | m :: rest =>
    if m ∈ seen then dedupFirst seen rest
    else m :: dedupFirst (m :: seen) rest

/-- The break-at-three loop collects the first three distinct tokens. -/
theorem take3Distinct_eq (l : List (List Char)) :
    ∀ seen acc : List (List Char), acc.length < 3 →
      take3Distinct seen acc l =
        acc.reverse ++ (dedupFirst seen l).take (3 - acc.length) := by
  induction l with
  | nil => intro seen acc _; simp [take3Distinct, dedupFirst]
  | cons m rest ih =>
    intro seen acc hlt
    by_cases hm : m ∈ seen
    · have hne : ¬(acc.length = 3) := by omega
      simp only [take3Distinct, dedupFirst, hm, if_pos, if_true]
      simp only [if_neg hne]
      exact ih seen acc hlt
    · simp only [take3Distinct, dedupFirst, hm, if_false, if_neg]
      by_cases h3 : (m :: acc).length = 3
      · simp only [List.length_cons] at h3
        simp only [List.length_cons, if_pos h3]
        have : 3 - acc.length = 1 := by omega
        simp [this, List.reverse_cons]
      · simp only [List.length_cons] at h3
        simp only [List.length_cons, if_neg h3]
        have hlt2 : (m :: acc).length < 3 := by simp; omega
        rw [ih (m :: seen) (m :: acc) hlt2]
        have : 3 - acc.length = (3 - (m :: acc).length) + 1 := by
          simp; omega
        rw [this]
        simp [List.take_succ_cons, List.reverse_cons, List.append_assoc]

/-- `dedupFirst` keeps one occurrence of every distinct token outside
`seen`. -/
theorem dedupFirst_length (l : List (List Char)) :
    ∀ seen : List (List Char),
      (dedupFirst seen l).length = (l.toFinset \ seen.toFinset).card := by
  induction l with
  | nil => intro seen; simp [dedupFirst]
  | cons m rest ih =>
    intro seen
    by_cases hm : m ∈ seen
    · simp only [dedupFirst, hm, if_pos, if_true]
      rw [ih seen]
      congr 1
      rw [List.toFinset_cons]
      exact (Finset.insert_sdiff_of_mem _ (List.mem_toFinset.mpr hm)).symm
    · simp only [dedupFirst, hm, if_false, if_neg, List.length_cons]
      rw [ih (m :: seen)]
      rw [List.toFinset_cons, List.toFinset_cons]
      have hsd : rest.toFinset \ insert m seen.toFinset =
          (rest.toFinset \ seen.toFinset).erase m := by
        ext x
        simp only [Finset.mem_sdiff, Finset.mem_insert, Finset.mem_erase]
        tauto
      have hins : insert m rest.toFinset \ seen.toFinset =
          insert m (rest.toFinset \ seen.toFinset) := by
        ext x
        simp only [Finset.mem_sdiff, Finset.mem_insert]
        constructor
        · rintro ⟨hx | hx, hns⟩
          · exact Or.inl hx
          · exact Or.inr ⟨hx, hns⟩
        · rintro (hx | ⟨hx, hns⟩)
          · subst hx
            exact ⟨Or.inl rfl, fun hc => hm (List.mem_toFinset.mp hc)⟩
          · exact ⟨Or.inr hx, hns⟩
      rw [hsd, hins]
      by_cases hmA : m ∈ rest.toFinset \ seen.toFinset
      · have h1 := Finset.card_erase_of_mem hmA
        have h2 := Finset.card_insert_of_mem hmA
        have h3 : 0 < (rest.toFinset \ seen.toFinset).card :=
          Finset.card_pos.mpr ⟨m, hmA⟩
        omega
      · rw [Finset.erase_eq_of_not_mem hmA, Finset.card_insert_of_not_mem hmA]

/-- C3, counterexample: the three distinct tokens after the customer-number
match are `9007199254740993.00`, `9007199254740992.00` and `1.00`; the
first two are float-equal, so the stable sort keeps their encounter order
and the record assigns the strictly larger amount to `total_amount_due` and
the strictly smaller one to `credit_limit` — the assignment is not
ascending in exact numeric value. -/
theorem C3_counterexample :
    (∃ m, extract_after_header c3Text = Except.ok (some m) ∧
      m.minimum_amount_due = "1.00" ∧
      m.total_amount_due = "9007199254740993.00" ∧
      m.credit_limit = "9007199254740992.00") ∧
    exactCents "9007199254740992.00".data <
      exactCents "9007199254740993.00".data := by
  constructor
  · refine ⟨⟨"1234-5678-9012-3456", "August 1, 2025", "August 28, 2025",
      "9007199254740992.00", "9007199254740993.00", "1.00", "table_row"⟩,
      ?_, rfl, rfl, rfl⟩
    decide
  · decide

/-- C3 (amended): whenever the money tokens found after the customer-number
match comprise exactly three distinct tokens, the extractor's money
assignment is the stable ascending sort of the first three distinct tokens
by their `float` value — smallest to `minimum_amount_due`, middle to
`total_amount_due`, largest to `credit_limit` — where tokens with equal
doubles keep encounter order, so the assignment follows exact numeric order
only as far as the doubles distinguish the tokens. -/
theorem C3_amended (blob searchText : List Char)
    (h : (MONEY_STRICT_finditer searchText).dedup.length = 3) :
    ∃ lo mid hi,
      moneyFields blob searchText = (lo, mid, hi) ∧
      [lo, mid, hi] =
        List.insertionSort tokLe
          (take3Distinct [] [] (MONEY_STRICT_finditer searchText)) ∧
      [lo, mid, hi].Perm
        (take3Distinct [] [] (MONEY_STRICT_finditer searchText)) ∧
      fkeyLe (m2f lo) (m2f mid) ∧ fkeyLe (m2f mid) (m2f hi) := by
  have hnl : ¬(MONEY_STRICT_finditer searchText).dedup.length < 3 := by omega
  have hd : take3Distinct [] [] (MONEY_STRICT_finditer searchText) =
      (dedupFirst [] (MONEY_STRICT_finditer searchText)).take 3 := by
    rw [take3Distinct_eq _ [] [] (by simp)]
    simp
  have hlen : (dedupFirst [] (MONEY_STRICT_finditer searchText)).length = 3 := by
    rw [dedupFirst_length]
    simp only [List.toFinset_nil, Finset.sdiff_empty]
    rw [List.card_toFinset]
    exact h
  have hd3 : (take3Distinct [] [] (MONEY_STRICT_finditer searchText)).length = 3 := by
    rw [hd, List.length_take, hlen]
    simp
  set distinct := take3Distinct [] [] (MONEY_STRICT_finditer searchText) with hdist
  have hperm := List.perm_insertionSort tokLe distinct
  have hsorted := List.sorted_insertionSort tokLe distinct
  have hslen : (List.insertionSort tokLe distinct).length = 3 := by
    rw [hperm.length_eq, hd3]
  obtain ⟨lo, mid, hi, hs⟩ :
      ∃ lo mid hi, List.insertionSort tokLe distinct = [lo, mid, hi] := by
    match hsl : List.insertionSort tokLe distinct with
    | [lo, mid, hi] => exact ⟨lo, mid, hi, rfl⟩
    | [] | [_] | [_, _] | _ :: _ :: _ :: _ :: _ =>
      rw [hsl] at hslen; simp at hslen
  refine ⟨lo, mid, hi, ?_, ?_, ?_, ?_, ?_⟩
  · unfold moneyFields
    simp only [if_neg hnl, ← hdist, if_pos hd3, hs]
  · exact hs.symm
  · rw [← hs]; exact hperm
  · rw [hs] at hsorted
    exact (List.sorted_cons.mp hsorted).1 mid (by simp)
  · rw [hs] at hsorted
    exact (List.sorted_cons.mp (List.sorted_cons.mp hsorted).2).1 hi (by simp)

/-- C3, witness: the three distinct tokens of the scenario block. -/
theorem C3_witness :
    ∃ lo mid hi,
      moneyFields [] " 100.00 5,000.00 20,000.00".data = (lo, mid, hi) ∧
      [lo, mid, hi] =
        List.insertionSort tokLe
          (take3Distinct [] []
            (MONEY_STRICT_finditer " 100.00 5,000.00 20,000.00".data)) ∧
      [lo, mid, hi].Perm
        (take3Distinct [] []
          (MONEY_STRICT_finditer " 100.00 5,000.00 20,000.00".data)) ∧
      fkeyLe (m2f lo) (m2f mid) ∧ fkeyLe (m2f mid) (m2f hi) :=
  C3_amended [] " 100.00 5,000.00 20,000.00".data (by decide)

/-! ### C4 — date de-duplication and the single-date case -/

/-- The days of the de-duplicated entries avoid `seen` and are pairwise
distinct. -/
theorem dedupDates_days_nodup (l : List (List Char × YMD)) :
    ∀ seen, (∀ d ∈ (dedupDates seen l).map Prod.snd, d ∉ seen) ∧
      ((dedupDates seen l).map Prod.snd).Nodup := by
  induction l with
  | nil => intro seen; simp [dedupDates]
  | cons p rest ih =>
    intro seen
    obtain ⟨ds, dt⟩ := p
    by_cases hm : dt ∈ seen
    · simp only [dedupDates, if_pos hm]
      exact ih seen
    · have ihh := ih (dt :: seen)
      refine ⟨?_, ?_⟩
      · intro d hd
        simp only [dedupDates, if_neg hm, List.map_cons, List.mem_cons] at hd
        rcases hd with hd | hd
        · subst hd; exact hm
        · intro hc
          exact (ihh.1 d hd) (List.mem_cons_of_mem _ hc)
      · simp only [dedupDates, if_neg hm, List.map_cons, List.nodup_cons]
        refine ⟨?_, ihh.2⟩
        intro hc
        exact (ihh.1 dt hc) (List.mem_cons_self _ _)

/-- Every parsed entry's day survives de-duplication (outside `seen`). -/
theorem dedupDates_covers (l : List (List Char × YMD)) :
    ∀ seen p, p ∈ l →
      p.2 ∈ seen ∨ ∃ q ∈ dedupDates seen l, q.2 = p.2 := by
  induction l with
  | nil => intro seen p hp; simp at hp
  | cons p0 rest ih =>
    intro seen p hp
    obtain ⟨ds, dt⟩ := p0
    rcases List.mem_cons.mp hp with hp | hp
    · subst hp
      by_cases hm : dt ∈ seen
      · exact Or.inl hm
      · exact Or.inr ⟨(ds, dt), by simp [dedupDates, if_neg hm], rfl⟩
    · by_cases hm : dt ∈ seen
      · simp only [dedupDates, if_pos hm]
        exact ih seen p hp
      · rcases ih (dt :: seen) p hp with hc | ⟨q, hq, hqe⟩
        · rcases List.mem_cons.mp hc with hc | hc
          · exact Or.inr ⟨(ds, dt), by simp [dedupDates, if_neg hm], hc.symm⟩
          · exact Or.inl hc
        · exact Or.inr ⟨q, by simp [dedupDates, if_neg hm, hq], hqe⟩

/-- De-duplication only keeps entries of the input. -/
theorem dedupDates_subset (l : List (List Char × YMD)) :
    ∀ seen q, q ∈ dedupDates seen l → q ∈ l := by
  induction l with
  | nil => intro seen q hq; simp [dedupDates] at hq
  | cons p0 rest ih =>
    intro seen q hq
    obtain ⟨ds, dt⟩ := p0
    by_cases hm : dt ∈ seen
    · simp only [dedupDates, if_pos hm] at hq
      exact List.mem_cons_of_mem _ (ih seen q hq)
    · simp only [dedupDates, if_neg hm, List.mem_cons] at hq
      rcases hq with hq | hq
      · exact List.mem_cons.mpr (Or.inl hq)
      · exact List.mem_cons_of_mem _ (ih _ q hq)

/-- C4: in Strategy C, two date tokens that parse to the same calendar day
collapse to a single chronological entry (the retained days are pairwise
distinct yet every parsed token's day is represented, by a retained entry
drawn from the parsed list); the entry the extractor reports as
`statement_date` is one whose day precedes every retained day; when only
one distinct day remains the reported `payment_due_date` is empty — and the
extraction can still succeed through `total_amount_due`, as the concrete
two-tokens-one-day input shows. -/
theorem C4_date_dedup :
    (∀ blob, ((uniqDates blob).map Prod.snd).Nodup) ∧
    (∀ blob p, p ∈ parsedDates blob → ∃ q ∈ uniqDates blob, q.2 = p.2) ∧
    (∀ blob q, q ∈ uniqDates blob → q ∈ parsedDates blob) ∧
    (∀ blob p0 t, uniqDates blob = p0 :: t →
      (dateFields blob).1 = p0.1 ∧ ∀ q ∈ uniqDates blob, YMD.le p0.2 q.2) ∧
    (∀ blob, (uniqDates blob).length = 1 → (dateFields blob).2 = []) ∧
    extract_after_header c4Text =
      Except.ok (some
        { customer_number := "1234-5678-9012-3456"
          statement_date := "August 1, 2025"
          payment_due_date := ""
          credit_limit := "20,000.00"
          total_amount_due := "5,000.00"
          minimum_amount_due := "100.00"
          source_layout := "table_row" }) := by
  have hperm : ∀ blob,
      (uniqDates blob).Perm (dedupDates [] (parsedDates blob)) :=
    fun blob => List.perm_insertionSort dateLe _
  refine ⟨?_, ?_, ?_, ?_, ?_, by decide⟩
  · intro blob
    have h := (dedupDates_days_nodup (parsedDates blob) []).2
    exact (((hperm blob).map Prod.snd).nodup_iff).mpr h
  · intro blob p hp
    rcases dedupDates_covers (parsedDates blob) [] p hp with hc | ⟨q, hq, hqe⟩
    · simp at hc
    · exact ⟨q, ((hperm blob).mem_iff).mpr hq, hqe⟩
  · intro blob q hq
    exact dedupDates_subset (parsedDates blob) [] q
      (((hperm blob).mem_iff).mp hq)
  · intro blob p0 t hu
    constructor
    · unfold dateFields
      rw [hu]
      rfl
    · intro q hq
      have hsorted := List.sorted_insertionSort dateLe
        (dedupDates [] (parsedDates blob))
      rw [show List.insertionSort dateLe (dedupDates [] (parsedDates blob)) =
            uniqDates blob from rfl, hu] at hsorted
      rw [hu] at hq
      rcases List.mem_cons.mp hq with hq | hq
      · subst hq
        unfold YMD.le
        omega
      · exact List.rel_of_sorted_cons hsorted q hq
  · intro blob hlen
    unfold dateFields
    have : ¬(2 ≤ (uniqDates blob).length) := by omega
    simp [this]

/-- C4, witness at the two-tokens-one-day block. -/
theorem C4_witness :
    ((uniqDates "1234-5678-9012-3456 August 1, 2025 1 Aug 2025 100.00 5,000.00 20,000.00".data).map
        Prod.snd).Nodup ∧
    (dateFields "1234-5678-9012-3456 August 1, 2025 1 Aug 2025 100.00 5,000.00 20,000.00".data).2 =
      [] ∧
    (dateFields "1234-5678-9012-3456 August 1, 2025 1 Aug 2025 100.00 5,000.00 20,000.00".data).1 =
      "August 1, 2025".data :=
  ⟨C4_date_dedup.1 _,
   C4_date_dedup.2.2.2.2.1 _ (by decide),
   (C4_date_dedup.2.2.2.1
      "1234-5678-9012-3456 August 1, 2025 1 Aug 2025 100.00 5,000.00 20,000.00".data
      ("August 1, 2025".data, ⟨2025, 8, 1⟩) [] (by decide)).1⟩

/-! ### C5 — money sign handling -/

/-- C5: for every token the money grammar accepts (decomposed into the
parenthetical flag and the `_MONEY_RE` groups), `parse_money` returns the
signed magnitude where the sign is negative exactly when the token is
parenthesized, carries an explicit minus, or is suffixed `CR` — except that
suffix `DR` always forces the positive sign; and the four concrete
normalizations of the specification hold (in exact cents). -/
theorem C5_sign_rule :
    (∀ s pn parts, moneyDecomp s = some (pn, parts) →
      parse_money s = some (moneySignedCents pn parts) ∧
      (parts.suf = some "DR".data → 0 ≤ moneySignedCents pn parts) ∧
      ((pn = true ∨ parts.sign = some '-' ∨ parts.suf = some "CR".data) →
        parts.suf ≠ some "DR".data → moneySignedCents pn parts ≤ 0) ∧
      (pn = false → parts.sign ≠ some '-' → parts.suf ≠ some "CR".data →
        0 ≤ moneySignedCents pn parts) ∧
      (moneySignedCents pn parts).natAbs = magCents parts) ∧
    parse_money "(1,234.56)".data = some (-123456) ∧
    parse_money "1,234.56CR".data = some (-123456) ∧
    parse_money "1,234.56DR".data = some 123456 ∧
    parse_money "₱1,000".data = some 100000 := by
  refine ⟨?_, by decide, by decide, by decide, by decide⟩
  intro s pn parts h
  refine ⟨by simp [parse_money, h], ?_, ?_, ?_, ?_⟩
  · intro hdr
    simp only [moneySignedCents, hdr]
    simp
  · intro hneg hnd
    have h1 : (pn || decide (parts.sign = some '-') ||
        decide (parts.suf = some "CR".data)) = true := by
      rcases hneg with h | h | h
      · simp [h]
      · simp [h]
      · simp [h]
    simp only [moneySignedCents, h1, hnd]
    simp [hnd]
  · intro h1 h2 h3
    simp only [moneySignedCents, h1, h2, h3]
    simp [h2, h3]
  · simp only [moneySignedCents]
    split
    · simp
    · simp

/-- C5, witness: the sign rule applied at the parenthesized token. -/
theorem C5_witness :
    parse_money "(1,234.56)".data =
      some (moneySignedCents true
        ⟨none, none, "1,234".data, some "56".data, none⟩) ∧
    (moneySignedCents true
        ⟨none, none, "1,234".data, some "56".data, none⟩).natAbs =
      magCents ⟨none, none, "1,234".data, some "56".data, none⟩ :=
  have h := C5_sign_rule.1 "(1,234.56)".data true
    ⟨none, none, "1,234".data, some "56".data, none⟩ (by decide)
  ⟨h.1, h.2.2.2.2⟩

end LedgerX
